import Mathlib

set_option maxHeartbeats 1000000

/-!
A shallow embedding of the `bitwarden-secrets-sync` program
(`src/index.js` together with its helper module `src/util.js`).

Bytes are modelled as `List Nat` whose entries are below 256 where that
matters.  External collaborators of the reconciliation engine are modelled
as follows, each noted on its definition:

* the brotli codec (`zlib.brotliCompressSync` / `zlib.brotliDecompressSync`)
  and the sha512 digest (`crypto.createHash("sha512")`) live in external
  libraries and are not part of the repository's sources; they are modelled
  from the spec's contracts (a lossless round-trip codec, a deterministic
  fixed-width digest);
* `Buffer.from(s, "base64")` and `buf.toString("base64")` are modelled by an
  executable base64 codec;
* `minimatch` glob matching is modelled by an abstract boolean predicate
  held in the configuration;
* the Bitwarden CLI state (the folder's item list) is modelled as an
  explicit list of items threaded through the run, and the blocking
  `confirm` prompt is modelled by a function from the prompted name to the
  operator's (trimmed, lowercased) response.
-/

/-- Raw byte sequences: one `Nat` per byte. -/
abbrev Bytes := List Nat

/-- Length of the leading run of `x` at the front of the list, capped at 254
so that the run length emitted by `compress` always fits in a single byte.
Helper for the run-length codec below. -/
def countLeading (x : Nat) : List Nat → Nat
  | [] => 0
  | y :: ys => if y = x then min (countLeading x ys + 1) 254 else 0

/-- Fuelled worker for `compress`; the fuel bounds the input length, which
keeps the recursion structural (and hence kernel-computable). -/
def compressGo : Nat → Bytes → Bytes
  | _, [] => []
  | 0, _ :: _ => []
  | fuel + 1, x :: xs =>
    (countLeading x xs + 1) :: x :: compressGo fuel (xs.drop (countLeading x xs))

/-- Modelled from the spec: `compress` in `src/util.js` calls
`zlib.brotliCompressSync` (an external library, not part of this
repository's sources).  Per the spec it is a lossless compression codec
paired with `decompress` under the round-trip law, modelled here as an
executable run-length encoder emitting (count, byte) pairs with
`1 ≤ count ≤ 255`. -/
def compress (l : Bytes) : Bytes := compressGo l.length l

/-- Modelled from the spec: `decompress` in `src/util.js` calls
`zlib.brotliDecompressSync` (external library); modelled as the decoder of
the run-length codec above, total on arbitrary input. -/
def decompress : Bytes → Bytes
  | c :: x :: rest => List.replicate c x ++ decompress rest
  | _ => []

/-- Modelled from the spec: `hash` in `src/util.js` is the sha512 hex digest
from node's `crypto` (external library); modelled as a deterministic
fixed-width (64-bit) fold digest.  No claim below relies on collision
resistance, only on the digest being a function of the bytes. -/
def hashDigest (b : Bytes) : Nat :=
  b.foldl (fun a x => (a * 131 + x + 1) % (2 ^ 64)) 7

/-- Standard base64 alphabet: sextet value to character code. -/
def b64char (s : Nat) : Nat :=
  if s < 26 then 65 + s
  else if s < 52 then 97 + (s - 26)
  else if s < 62 then 48 + (s - 52)
  else if s = 62 then 43
  else 47

/-- Inverse of the base64 alphabet: character code to sextet value
(unknown characters, including the pad `=` (61), map to 0; the decoder
below treats the pad structurally). -/
def b64val (c : Nat) : Nat :=
  if 65 ≤ c ∧ c ≤ 90 then c - 65
  else if 97 ≤ c ∧ c ≤ 122 then c - 97 + 26
  else if 48 ≤ c ∧ c ≤ 57 then c - 48 + 52
  else if c = 43 then 62
  else if c = 47 then 63
  else 0

/-- Modelled from the spec: `buf.toString("base64")` (node `Buffer`,
external): standard base64 with `=` (code 61) padding, as character
codes. -/
def b64encode : Bytes → Bytes
  | [] => []
  | [b1] => [b64char (b1 / 4), b64char (b1 % 4 * 16), 61, 61]
  | [b1, b2] => [b64char (b1 / 4), b64char (b1 % 4 * 16 + b2 / 16), b64char (b2 % 16 * 4), 61]
  | b1 :: b2 :: b3 :: rest =>
    b64char (b1 / 4) :: b64char (b1 % 4 * 16 + b2 / 16) ::
      b64char (b2 % 16 * 4 + b3 / 64) :: b64char (b3 % 64) :: b64encode rest

/-- Modelled from the spec: `Buffer.from(s, "base64")` (node `Buffer`,
external): base64 decoding, total on arbitrary input. -/
def b64decode : Bytes → Bytes
  | c1 :: c2 :: c3 :: c4 :: rest =>
    if c3 = 61 then [b64val c1 * 4 + b64val c2 / 16]
    else if c4 = 61 then
      [b64val c1 * 4 + b64val c2 / 16, b64val c2 % 16 * 16 + b64val c3 / 4]
    else
      (b64val c1 * 4 + b64val c2 / 16) :: (b64val c2 % 16 * 16 + b64val c3 / 4) ::
        (b64val c3 % 4 * 64 + b64val c4) :: b64decode rest
  | _ => []

/-- One Bitwarden item as listed by `bw list items --folderid ...`:
`id`, `name`, `notes` (the payload: base64 of the compressed file bytes, as
character codes), `revisionDate` (modelled as a numeric instant), plus the
`type` and `folderId` fields of the item document. -/
structure RemoteItem where
  id : Nat
  name : String
  itemType : Nat
  notes : Bytes
  revisionDate : Nat
  folderId : Nat
deriving DecidableEq

/-- One directory entry as seen by `fs.lstatSync` / `fs.readFileSync`:
whether it is a regular file, its byte content, its permission mode and its
modification time (`mtimeMs`). -/
structure LocalEntry where
  isFile : Bool
  content : Bytes
  mode : Nat
  mtimeMs : Nat
deriving DecidableEq

/-- The local working directory: an association list from entry name to
entry (directory listing order preserved). -/
abbrev LocalFS := List (String × LocalEntry)

/-- Model of `fs.lstatSync(name, throwIfNoEntry: false)` on the directory:
the entry under a name, if present. -/
def fsGet : LocalFS → String → Option LocalEntry
  | [], _ => none
  | (k, v) :: rest, n => if n = k then some v else fsGet rest n

/-- Model of `fs.writeFileSync(name, data, mode)` followed by
`touch -t ts name` (the pull action).  Per node/POSIX semantics the `mode`
option of `writeFileSync` takes effect only when the file is created; an
existing file keeps its previous permission mode and only its content (and,
via `touch`, its timestamp) change. -/
def fsWrite (fs : LocalFS) (n : String) (data : Bytes) (mode ts : Nat) : LocalFS :=
  if (fsGet fs n).isSome then
    fs.map fun p =>
      (p.1, if p.1 = n then { p.2 with content := data, mtimeMs := ts } else p.2)
  else
    fs ++ [(n, { isFile := true, content := data, mode := mode, mtimeMs := ts })]

/-- Model of `fs.unlinkSync(name)`. -/
def fsDelete (fs : LocalFS) (n : String) : LocalFS :=
  fs.filter fun p => p.1 != n

/-- Model of `bw edit item id doc`: the submitted document replaces the
item with the given id. -/
def bwEditItem (store : List RemoteItem) (i : Nat) (doc : RemoteItem) : List RemoteItem :=
  store.map fun j => if j.id = i then doc else j

/-- Model of `bw delete item id`. -/
def bwDeleteItem (store : List RemoteItem) (i : Nat) : List RemoteItem :=
  store.filter fun j => j.id != i

/-- Model of `bw create item doc`: the new item is appended to the folder's
listing. -/
def bwCreateItem (store : List RemoteItem) (doc : RemoteItem) : List RemoteItem :=
  store ++ [doc]

/-- An id unused by the store, standing for the id the CLI assigns to a
created item. -/
def freshId (store : List RemoteItem) : Nat :=
  (store.map RemoteItem.id).foldr max 0 + 1

/-- Run configuration: the compiled ignore predicate
(`f => ignorePatterns.some(p => minimatch(f, p))`; `minimatch` is an
external library, so the predicate is abstract) and the resolved Bitwarden
folder id. -/
structure SyncConfig where
  ignored : String → Bool
  folderId : Nat

/-- The per-name reconciliation decision of `src/index.js`
(`let action = "skip"; ...`). -/
inductive Decision
  | pull
  | push
  | deleteLocal
  | deleteRemote
  | skip
deriving DecidableEq

/-- Which of the three `confirm` prompts was shown for a name, if any. -/
inductive PromptKind
  | remoteMissingLocal
  | diverged
  | localUnmatched
deriving DecidableEq

/-- The single-character responses offered by each prompt. -/
def promptChoices : PromptKind → List String
  | PromptKind.remoteMissingLocal => ["d", "p"]
  | PromptKind.diverged => ["p", "u"]
  | PromptKind.localUnmatched => ["d", "u"]

/-- What happened for one processed name: the decision that was executed
and whether (and which) prompt was shown. -/
structure TraceEntry where
  name : String
  decision : Decision
  prompted : Option PromptKind
deriving DecidableEq

/-- The mutable state of the run: the local directory, the remote folder's
items, and the `localRemaining` set (as an ordered list). -/
structure SyncState where
  fs : LocalFS
  store : List RemoteItem
  remaining : List String
deriving DecidableEq

/-- The candidate filter of `src/index.js`: regular files only, excluding
the `.bwss` configuration file and ignore-pattern matches. -/
def isCandidate (cfg : SyncConfig) (p : String × LocalEntry) : Bool :=
  p.2.isFile && p.1 != ".bwss" && !(cfg.ignored p.1)

/-- The initial `localRemaining` set: names of eligible directory entries. -/
def candidates (cfg : SyncConfig) (fs : LocalFS) : List String :=
  (fs.filter (isCandidate cfg)).map Prod.fst

/-- One iteration of the remote-item loop of `src/index.js`: remove the
name from `localRemaining`, decompress the payload, compare fingerprints,
choose the action (prompting where the code prompts), and execute it.
`localEmpty` is the fresh-client flag computed once before the loop.
`answer n` is the operator's trimmed lowercased response to the prompt for
name `n`. -/
def processItem (answer : String → String) (localEmpty : Bool)
    (st : SyncState) (item : RemoteItem) : SyncState × TraceEntry :=
  let remaining' := st.remaining.erase item.name
  let upData := decompress (b64decode item.notes)
  match fsGet st.fs item.name with
  | some e =>
    if e.isFile then
      if hashDigest upData ≠ hashDigest e.content then
        match answer item.name with
        | "p" =>
          ({ st with
              fs := fsWrite st.fs item.name upData 0o400 item.revisionDate,
              remaining := remaining' },
           { name := item.name, decision := Decision.pull,
             prompted := some PromptKind.diverged })
        | "u" =>
          ({ st with
              store := bwEditItem st.store item.id
                { item with notes := b64encode (compress e.content) },
              remaining := remaining' },
           { name := item.name, decision := Decision.push,
             prompted := some PromptKind.diverged })
        | _ =>
          ({ st with remaining := remaining' },
           { name := item.name, decision := Decision.skip,
             prompted := some PromptKind.diverged })
      else
        ({ st with remaining := remaining' },
         { name := item.name, decision := Decision.skip, prompted := none })
    else
      ({ st with remaining := remaining' },
       { name := item.name, decision := Decision.skip, prompted := none })
  | none =>
    if localEmpty then
      ({ st with
          fs := fsWrite st.fs item.name upData 0o400 item.revisionDate,
          remaining := remaining' },
       { name := item.name, decision := Decision.pull, prompted := none })
    else
      match answer item.name with
      | "d" =>
        ({ st with store := bwDeleteItem st.store item.id, remaining := remaining' },
         { name := item.name, decision := Decision.deleteRemote,
           prompted := some PromptKind.remoteMissingLocal })
      | "p" =>
        ({ st with
            fs := fsWrite st.fs item.name upData 0o400 item.revisionDate,
            remaining := remaining' },
         { name := item.name, decision := Decision.pull,
           prompted := some PromptKind.remoteMissingLocal })
      | _ =>
        ({ st with remaining := remaining' },
         { name := item.name, decision := Decision.skip,
           prompted := some PromptKind.remoteMissingLocal })

/-- The remote-item loop, over the snapshot listing taken before the loop
started. -/
def runRemote (answer : String → String) (localEmpty : Bool) :
    SyncState → List RemoteItem → SyncState × List TraceEntry
  | st, [] => (st, [])
  | st, item :: rest =>
    let p := processItem answer localEmpty st item
    let r := runRemote answer localEmpty p.1 rest
    (r.1, p.2 :: r.2)

/-- One iteration of the `localRemaining` loop of `src/index.js`: prompt
for delete-local or push-as-new; any other response skips.  The created
item document mirrors the source: `type: 2` (secure note), the file name as
the item name, base64-compressed file bytes as notes, the configured
folder id.  (`fs.readFileSync` on a missing path would abort the whole
process; the theorems below only reach the read with the file present, and
the model totalises it with an empty payload.) -/
def processLocal (cfg : SyncConfig) (answer : String → String)
    (fs : LocalFS) (store : List RemoteItem) (f : String) :
    (LocalFS × List RemoteItem) × TraceEntry :=
  match answer f with
  | "d" =>
    ((fsDelete fs f, store),
     { name := f, decision := Decision.deleteLocal,
       prompted := some PromptKind.localUnmatched })
  | "u" =>
    let content := ((fsGet fs f).map LocalEntry.content).getD []
    ((fs, bwCreateItem store
        { id := freshId store, name := f, itemType := 2,
          notes := b64encode (compress content), revisionDate := 0,
          folderId := cfg.folderId }),
     { name := f, decision := Decision.push,
       prompted := some PromptKind.localUnmatched })
  | _ =>
    ((fs, store),
     { name := f, decision := Decision.skip,
       prompted := some PromptKind.localUnmatched })

/-- The `localRemaining` loop. -/
def runLocal (cfg : SyncConfig) (answer : String → String) :
    LocalFS × List RemoteItem → List String → (LocalFS × List RemoteItem) × List TraceEntry
  | s, [] => (s, [])
  | s, f :: rest =>
    let p := processLocal cfg answer s.1 s.2 f
    let r := runLocal cfg answer p.1 rest
    (r.1, p.2 :: r.2)

/-- A full reconciliation pass: compute the candidate set and the
fresh-client flag, run the remote-item loop over the folder listing, then
the remaining-local loop.  Returns the final (local directory, remote
store) and the trace of executed decisions. -/
def run (cfg : SyncConfig) (fs0 : LocalFS) (items : List RemoteItem)
    (answer : String → String) : (LocalFS × List RemoteItem) × List TraceEntry :=
  let remaining0 := candidates cfg fs0
  let r1 := runRemote answer remaining0.isEmpty
    { fs := fs0, store := items, remaining := remaining0 } items
  let r2 := runLocal cfg answer (r1.1.fs, r1.1.store) r1.1.remaining
  (r2.1, r1.2 ++ r2.2)

/-- The state and trace after the remote-item phase of `run` (the loop over
`items`), starting from the freshly scanned directory. -/
def phase1 (cfg : SyncConfig) (fs0 : LocalFS) (items : List RemoteItem)
    (answer : String → String) : SyncState × List TraceEntry :=
  runRemote answer (candidates cfg fs0).isEmpty
    { fs := fs0, store := items, remaining := candidates cfg fs0 } items

/-- The content of the regular file named `n`, if one exists. -/
def localFileContent (fs : LocalFS) (n : String) : Option Bytes :=
  match fsGet fs n with
  | some e => if e.isFile then some e.content else none
  | none => none

/-- The payload of the (first) remote item named `n`, if any. -/
def remoteNotesOf (store : List RemoteItem) (n : String) : Option Bytes :=
  (store.find? fun j => j.name == n).map RemoteItem.notes

/-- The fingerprint of a stored payload: digest of the base64-decoded,
decompressed notes (the `upHash` of `src/index.js`). -/
def remoteFingerprint (notes : Bytes) : Nat :=
  hashDigest (decompress (b64decode notes))

/-- The decision recorded for name `n` in a trace. -/
def decisionOf (tr : List TraceEntry) (n : String) : Option Decision :=
  (tr.find? fun t => t.name == n).map TraceEntry.decision

/-- The prompt record for name `n` in a trace. -/
def promptedOf (tr : List TraceEntry) (n : String) : Option (Option PromptKind) :=
  (tr.find? fun t => t.name == n).map TraceEntry.prompted

/-- All file contents in the directory are genuine bytes. -/
def FsBytes (fs : LocalFS) : Prop :=
  ∀ p ∈ fs, ∀ x ∈ p.2.content, x < 256

/-- Every store entry descends from a listed item, keeping its id and
name (the remote loop only edits payloads and deletes items). -/
def StoreSub (items store : List RemoteItem) : Prop :=
  ∀ j ∈ store, ∃ i ∈ items, j.id = i.id ∧ j.name = i.name

/-- The reconciliation invariant at a name: whenever a local regular file
and a remote item both exist under `n`, their fingerprints agree, unless
the decision executed for `n` was skip. -/
def NameConsistent (fs : LocalFS) (store : List RemoteItem)
    (tr : List TraceEntry) (n : String) : Prop :=
  ∀ c p, localFileContent fs n = some c → remoteNotesOf store n = some p →
    hashDigest c = remoteFingerprint p ∨ decisionOf tr n = some Decision.skip

/-- The modules required at the top of `src/util.js` (`chalk`,
`child_process`, `crypto`, `fs`, `luxon`, `zlib`).  Notably `os` is not
among them, although `bwSession` uses `os.EOL`. -/
def utilRequiredModules : List String :=
  ["chalk", "child_process", "crypto", "fs", "luxon", "zlib"]

/-- The fixed line head `UNLOCK_STDOUT_SESSION_LINE_PREFIX` of
`src/util.js`. -/
def unlockSessionLineHead : String := "$ export BW_SESSION="

/-- Model of the `bwSession` initialiser of `src/util.js`: reuse
`process.env.BW_SESSION` when present; otherwise run `bw unlock` and parse
the token out of the line starting with the fixed head.  Splitting the
output uses `os.EOL`, and `os` is resolved against the module's requires:
an unresolved name raises a `ReferenceError` (modelled as the error
branch), which in node terminates the program.  On a found line the token
is `line.slice(head.length + 1, -1)`. -/
def bwSessionInit (envSession : Option String) (unlockOutLines : List String) :
    Except String String :=
  match envSession with
  | some s => Except.ok s
  | none =>
    if utilRequiredModules.contains "os" then
      match unlockOutLines.find? (fun l => l.startsWith unlockSessionLineHead) with
      | some line =>
        Except.ok ((line.drop (unlockSessionLineHead.length + 1)).dropRight 1)
      | none => Except.error "Session not found."
    else
      Except.error "ReferenceError: os is not defined"

/-! ## Concrete fixtures for the evaluation witnesses -/

/-- A configuration that ignores nothing. -/
def cfgPlain : SyncConfig := { ignored := fun _ => false, folderId := 9 }

/-- A configuration whose ignore patterns match exactly the name "a". -/
def cfgIgnoreA : SyncConfig := { ignored := fun s => s == "a", folderId := 9 }

/-- A remote item named "a" whose payload decodes to the byte 7. -/
def item7 : RemoteItem :=
  { id := 1, name := "a", itemType := 2, notes := b64encode (compress [7]),
    revisionDate := 5, folderId := 9 }

/-- A remote item named "a" whose payload decodes to the byte 2. -/
def item2 : RemoteItem :=
  { id := 1, name := "a", itemType := 2, notes := b64encode (compress [2]),
    revisionDate := 5, folderId := 9 }

/-- A local regular file entry with content [1] and mode 0o644. -/
def entry1 : LocalEntry := { isFile := true, content := [1], mode := 0o644, mtimeMs := 0 }

/-- A local regular file entry with content [7] and mode 0o644. -/
def entry7 : LocalEntry := { isFile := true, content := [7], mode := 0o644, mtimeMs := 0 }

/-- A directory containing only the file "a" with content [1]. -/
def fsA1 : LocalFS := [("a", entry1)]

/-- A directory containing only the file "a" with content [7]. -/
def fsA7 : LocalFS := [("a", entry7)]

/-- A loop state over fsA1 listing item2. -/
def stA1 : SyncState := { fs := fsA1, store := [item2], remaining := ["a"] }

/-- A loop state over fsA7 listing item7. -/
def stA7 : SyncState := { fs := fsA7, store := [item7], remaining := ["a"] }

/-- An operator that always answers "p". -/
def ansP : String → String := fun _ => "p"

/-- An operator that always answers "u". -/
def ansU : String → String := fun _ => "u"

/-- An operator that always answers an unrecognized "x". -/
def ansX : String → String := fun _ => "x"

/-! ## Codec lemmas -/

theorem countLeading_le_length (x : Nat) (l : List Nat) : countLeading x l ≤ l.length := by
  induction l with
  | nil => simp [countLeading]
  | cons y ys ih =>
    by_cases h : y = x
    · simp only [countLeading, if_pos h, List.length_cons]
      omega
    · simp [countLeading, h]

theorem countLeading_le_254 (x : Nat) (l : List Nat) : countLeading x l ≤ 254 := by
  cases l with
  | nil => simp [countLeading]
  | cons y ys =>
    by_cases h : y = x
    · simp only [countLeading, if_pos h]
      omega
    · simp [countLeading, h]

theorem take_countLeading (x : Nat) (l : List Nat) :
    l.take (countLeading x l) = List.replicate (countLeading x l) x := by
  induction l with
  | nil => simp [countLeading]
  | cons y ys ih =>
    by_cases h : y = x
    · subst h
      have hcl : countLeading y (y :: ys) = min (countLeading y ys + 1) 254 := by
        simp [countLeading]
      rw [hcl]
      have h1 : min (countLeading y ys + 1) 254 =
          (min (countLeading y ys + 1) 254 - 1) + 1 := by omega
      rw [h1, List.take_succ_cons, List.replicate_succ]
      congr 1
      have hkn : min (countLeading y ys + 1) 254 - 1 ≤ countLeading y ys := by omega
      calc ys.take (min (countLeading y ys + 1) 254 - 1)
          = (ys.take (countLeading y ys)).take (min (countLeading y ys + 1) 254 - 1) := by
            rw [List.take_take, Nat.min_eq_left hkn]
        _ = (List.replicate (countLeading y ys) y).take
              (min (countLeading y ys + 1) 254 - 1) := by rw [ih]
        _ = List.replicate (min (countLeading y ys + 1) 254 - 1) y := by
            rw [List.take_replicate, Nat.min_eq_left hkn]
    · simp [countLeading, h]

theorem decompress_compressGo (fuel : Nat) :
    ∀ l : Bytes, l.length ≤ fuel → decompress (compressGo fuel l) = l := by
  induction fuel with
  | zero =>
    intro l h
    cases l with
    | nil => rfl
    | cons x xs => simp at h
  | succ fuel ih =>
    intro l h
    cases l with
    | nil => rfl
    | cons x xs =>
      simp only [compressGo, decompress]
      rw [ih (xs.drop (countLeading x xs))
        (by simpa using Nat.le_trans (Nat.sub_le _ _) (Nat.le_of_succ_le_succ (by simpa using h)))]
      rw [List.replicate_succ, List.cons_append, ← take_countLeading, List.take_append_drop]

theorem decompress_compress (l : Bytes) : decompress (compress l) = l :=
  decompress_compressGo l.length l le_rfl

theorem compressGo_lt (fuel : Nat) :
    ∀ l : Bytes, (∀ x ∈ l, x < 256) → ∀ y ∈ compressGo fuel l, y < 256 := by
  induction fuel with
  | zero =>
    intro l hl y hy
    cases l <;> simp [compressGo] at hy
  | succ fuel ih =>
    intro l hl y hy
    cases l with
    | nil => simp [compressGo] at hy
    | cons x xs =>
      simp only [compressGo, List.mem_cons] at hy
      rcases hy with rfl | rfl | hy
      · have := countLeading_le_254 x xs
        omega
      · exact hl _ (by simp)
      · exact ih (xs.drop (countLeading x xs))
          (fun z hz => hl z (List.mem_cons_of_mem _ (List.mem_of_mem_drop hz))) y hy

theorem compress_lt (l : Bytes) (hl : ∀ x ∈ l, x < 256) : ∀ y ∈ compress l, y < 256 :=
  compressGo_lt l.length l hl

theorem decompress_lt :
    ∀ l : Bytes, (∀ x ∈ l, x < 256) → ∀ y ∈ decompress l, y < 256
  | [], _ => by simp [decompress]
  | [c], _ => by simp [decompress]
  | c :: x :: rest, hl => by
    intro y hy
    simp only [decompress, List.mem_append, List.mem_replicate] at hy
    rcases hy with ⟨-, rfl⟩ | hy
    · exact hl _ (by simp)
    · exact decompress_lt rest (fun z hz => hl z (by simp [hz])) y hy

/-! ## Base64 lemmas -/

theorem b64val_b64char : ∀ s, s < 64 → b64val (b64char s) = s := by decide

theorem b64char_ne_pad : ∀ s, s < 64 → b64char s ≠ 61 := by decide

theorem b64val_le (c : Nat) : b64val c ≤ 63 := by
  unfold b64val
  split_ifs <;> omega

theorem mulAddDiv (u r : Nat) {k : Nat} (hk : 0 < k) (hr : r < k) : (u * k + r) / k = u := by
  rw [Nat.mul_comm, Nat.mul_add_div hk, Nat.div_eq_of_lt hr]
  omega

theorem mulAddMod (u r : Nat) {k : Nat} (hr : r < k) : (u * k + r) % k = r := by
  rw [Nat.mul_comm, Nat.mul_add_mod, Nat.mod_eq_of_lt hr]

theorem mulDivSelf (u : Nat) {k : Nat} (hk : 0 < k) : u * k / k = u := by
  rw [Nat.mul_comm, Nat.mul_div_right]
  exact hk

theorem b64decode_encode : ∀ l : Bytes, (∀ x ∈ l, x < 256) → b64decode (b64encode l) = l
  | [], _ => rfl
  | [b1], hl => by
    have h1 : b1 < 256 := hl b1 (by simp)
    have e1 := b64val_b64char (b1 / 4) (by omega)
    have e2 := b64val_b64char (b1 % 4 * 16) (by omega)
    have e2d : b1 % 4 * 16 / 16 = b1 % 4 := mulDivSelf _ (by norm_num)
    simp only [b64encode, b64decode, reduceIte, e1, e2, e2d, List.cons.injEq, and_true]
    omega
  | [b1, b2], hl => by
    have h1 : b1 < 256 := hl b1 (by simp)
    have h2 : b2 < 256 := hl b2 (by simp)
    have e1 := b64val_b64char (b1 / 4) (by omega)
    have e2 := b64val_b64char (b1 % 4 * 16 + b2 / 16) (by omega)
    have e3 := b64val_b64char (b2 % 16 * 4) (by omega)
    have n3 := b64char_ne_pad (b2 % 16 * 4) (by omega)
    have e2d : (b1 % 4 * 16 + b2 / 16) / 16 = b1 % 4 := mulAddDiv _ _ (by norm_num) (by omega)
    have e2m : (b1 % 4 * 16 + b2 / 16) % 16 = b2 / 16 := mulAddMod _ _ (by omega)
    have e3d : b2 % 16 * 4 / 4 = b2 % 16 := mulDivSelf _ (by norm_num)
    simp only [b64encode, b64decode, if_neg n3, reduceIte, e1, e2, e3, e2d, e2m, e3d,
      List.cons.injEq, and_true]
    omega
  | b1 :: b2 :: b3 :: rest, hl => by
    have h1 : b1 < 256 := hl b1 (by simp)
    have h2 : b2 < 256 := hl b2 (by simp)
    have h3 : b3 < 256 := hl b3 (by simp)
    have ih := b64decode_encode rest (fun x hx => hl x (by simp [hx]))
    have e1 := b64val_b64char (b1 / 4) (by omega)
    have e2 := b64val_b64char (b1 % 4 * 16 + b2 / 16) (by omega)
    have e3 := b64val_b64char (b2 % 16 * 4 + b3 / 64) (by omega)
    have e4 := b64val_b64char (b3 % 64) (by omega)
    have n3 := b64char_ne_pad (b2 % 16 * 4 + b3 / 64) (by omega)
    have n4 := b64char_ne_pad (b3 % 64) (by omega)
    have e2d : (b1 % 4 * 16 + b2 / 16) / 16 = b1 % 4 := mulAddDiv _ _ (by norm_num) (by omega)
    have e2m : (b1 % 4 * 16 + b2 / 16) % 16 = b2 / 16 := mulAddMod _ _ (by omega)
    have e3d : (b2 % 16 * 4 + b3 / 64) / 4 = b2 % 16 := mulAddDiv _ _ (by norm_num) (by omega)
    have e3m : (b2 % 16 * 4 + b3 / 64) % 4 = b3 / 64 := mulAddMod _ _ (by omega)
    cases rest with
    | nil =>
      simp only [b64encode, b64decode, if_neg n3, if_neg n4, e1, e2, e3, e4, e2d, e2m,
        e3d, e3m, List.cons.injEq, and_true]
      omega
    | cons r rs =>
      simp only [b64encode] at ih ⊢
      simp only [b64decode, if_neg n3, if_neg n4, e1, e2, e3, e4, e2d, e2m, e3d, e3m,
        List.cons.injEq]
      refine ⟨by omega, by omega, by omega, ?_⟩
      exact ih

theorem b64decode_lt : ∀ l : Bytes, ∀ y ∈ b64decode l, y < 256
  | [] => by simp [b64decode]
  | [c1] => by simp [b64decode]
  | [c1, c2] => by simp [b64decode]
  | [c1, c2, c3] => by simp [b64decode]
  | c1 :: c2 :: c3 :: c4 :: rest => by
    have v1 := b64val_le c1
    have v2 := b64val_le c2
    have v3 := b64val_le c3
    have v4 := b64val_le c4
    have ih := b64decode_lt rest
    intro y hy
    simp only [b64decode] at hy
    split_ifs at hy <;> simp only [List.mem_cons, List.mem_singleton] at hy
    · rcases hy with rfl | h
      · omega
      · simp at h
    · rcases hy with rfl | rfl | h
      · omega
      · omega
      · simp at h
    · rcases hy with rfl | rfl | rfl | hy
      · omega
      · omega
      · omega
      · exact ih y hy

/-! ## Local filesystem lemmas -/

theorem fsGet_mem : ∀ {fs : LocalFS} {n : String} {e : LocalEntry},
    fsGet fs n = some e → (n, e) ∈ fs := by
  intro fs
  induction fs with
  | nil => intro n e h; simp [fsGet] at h
  | cons p rest ih =>
    intro n e h
    rcases p with ⟨k, v⟩
    by_cases hk : n = k
    · subst hk
      simp [fsGet] at h
      subst h
      exact List.mem_cons_self _ _
    · simp only [fsGet, if_neg hk] at h
      exact List.mem_cons_of_mem _ (ih h)

theorem fsGet_of_mem_nodup : ∀ {fs : LocalFS}, (fs.map Prod.fst).Nodup →
    ∀ {n : String} {e : LocalEntry}, (n, e) ∈ fs → fsGet fs n = some e := by
  intro fs
  induction fs with
  | nil => intro _ n e h; simp at h
  | cons p rest ih =>
    intro hnd n e h
    rcases p with ⟨k, v⟩
    simp only [List.map_cons, List.nodup_cons] at hnd
    rcases List.mem_cons.mp h with heq | hmem
    · cases heq
      simp [fsGet]
    · by_cases hk : n = k
      · subst hk
        exact absurd (List.mem_map_of_mem Prod.fst hmem) hnd.1
      · simp only [fsGet, if_neg hk]
        exact ih hnd.2 hmem

theorem fsGet_append : ∀ (l1 l2 : LocalFS) (n : String),
    fsGet (l1 ++ l2) n =
      match fsGet l1 n with
      | some e => some e
      | none => fsGet l2 n := by
  intro l1 l2 n
  induction l1 with
  | nil => simp [fsGet]
  | cons p rest ih =>
    rcases p with ⟨k, v⟩
    by_cases hk : n = k
    · subst hk
      simp [fsGet]
    · rw [List.cons_append]
      rw [show fsGet ((k, v) :: (rest ++ l2)) n = fsGet (rest ++ l2) n by
        simp [fsGet, hk]]
      rw [show fsGet ((k, v) :: rest) n = fsGet rest n by simp [fsGet, hk]]
      exact ih

theorem fsGet_writeMap : ∀ (fs : LocalFS) (n : String) (d : Bytes) (t : Nat),
    fsGet (fs.map fun p =>
        (p.1, if p.1 = n then { p.2 with content := d, mtimeMs := t } else p.2)) n
      = (fsGet fs n).map fun e => { e with content := d, mtimeMs := t } := by
  intro fs n d t
  induction fs with
  | nil => simp [fsGet]
  | cons p rest ih =>
    rcases p with ⟨k, v⟩
    by_cases hk : n = k
    · subst hk
      simp [fsGet]
    · simp only [List.map_cons, fsGet, if_neg hk]
      exact ih

theorem fsGet_writeMap_ne : ∀ (fs : LocalFS) {n n' : String}, n' ≠ n → ∀ (d : Bytes) (t : Nat),
    fsGet (fs.map fun p =>
        (p.1, if p.1 = n then { p.2 with content := d, mtimeMs := t } else p.2)) n'
      = fsGet fs n' := by
  intro fs n n' hne d t
  induction fs with
  | nil => simp [fsGet]
  | cons p rest ih =>
    rcases p with ⟨k, v⟩
    by_cases hk2 : n' = k
    · subst hk2
      simp [fsGet, hne]
    · simp only [List.map_cons, fsGet, if_neg hk2]
      exact ih

theorem fsWrite_get_self_of_none {fs : LocalFS} {n : String} (h : fsGet fs n = none)
    (d : Bytes) (m t : Nat) :
    fsGet (fsWrite fs n d m t) n =
      some { isFile := true, content := d, mode := m, mtimeMs := t } := by
  unfold fsWrite
  rw [h]
  simp only [Option.isSome_none, Bool.false_eq_true, if_false, fsGet_append, h, fsGet]
  simp

theorem fsWrite_get_self_of_some {fs : LocalFS} {n : String} {e : LocalEntry}
    (h : fsGet fs n = some e) (d : Bytes) (m t : Nat) :
    fsGet (fsWrite fs n d m t) n = some { e with content := d, mtimeMs := t } := by
  unfold fsWrite
  rw [h]
  simp only [Option.isSome_some, if_true, fsGet_writeMap, h]
  simp

theorem fsWrite_get_ne {fs : LocalFS} {n n' : String} (hne : n' ≠ n) (d : Bytes) (m t : Nat) :
    fsGet (fsWrite fs n d m t) n' = fsGet fs n' := by
  unfold fsWrite
  by_cases h : (fsGet fs n).isSome
  · simp only [h, if_true, fsGet_writeMap_ne _ hne]
  · simp only [h, Bool.false_eq_true, if_false, fsGet_append]
    have h2 : fsGet [(n, { isFile := true, content := d, mode := m, mtimeMs := t })] n'
        = none := by
      simp [fsGet, hne]
    rw [h2]
    cases hg : fsGet fs n' <;> rfl

theorem fsDelete_get_self (fs : LocalFS) (n : String) : fsGet (fsDelete fs n) n = none := by
  unfold fsDelete
  induction fs with
  | nil => simp [fsGet]
  | cons p rest ih =>
    rcases p with ⟨k, v⟩
    by_cases hk : k = n
    · subst hk
      simp only [List.filter_cons, bne_self_eq_false, Bool.false_eq_true, if_false]
      exact ih
    · have hkb : (k != n) = true := by simp [bne_iff_ne, hk]
      have hnk : ¬ n = k := fun h => hk h.symm
      simp only [List.filter_cons, hkb, if_true, fsGet, if_neg hnk]
      exact ih

theorem fsDelete_get_ne {n n' : String} (hne : n' ≠ n) (fs : LocalFS) :
    fsGet (fsDelete fs n) n' = fsGet fs n' := by
  unfold fsDelete
  induction fs with
  | nil => simp [fsGet]
  | cons p rest ih =>
    rcases p with ⟨k, v⟩
    by_cases hk : k = n
    · subst hk
      have hn'k : ¬ n' = k := hne
      simp only [List.filter_cons, bne_self_eq_false, Bool.false_eq_true, if_false, fsGet,
        if_neg hn'k]
      exact ih
    · have hkb : (k != n) = true := by simp [bne_iff_ne, hk]
      by_cases hk2 : n' = k
      · subst hk2
        simp only [List.filter_cons, hkb, if_true, fsGet, if_pos rfl]
      · simp only [List.filter_cons, hkb, if_true, fsGet, if_neg hk2]
        exact ih

/-! ## Remote store lemmas -/

theorem find?_name_edit_ne : ∀ (store : List RemoteItem) (i : Nat) (doc : RemoteItem)
    (n : String), doc.name ≠ n → (∀ j ∈ store, j.name = n → j.id ≠ i) →
    (store.map fun j => if j.id = i then doc else j).find? (fun j => j.name == n)
      = store.find? (fun j => j.name == n) := by
  intro store i doc n hdoc
  induction store with
  | nil => intro _; rfl
  | cons j rest ih =>
    intro hstore
    simp only [List.map_cons]
    by_cases hj : j.id = i
    · have hjn : j.name ≠ n := fun h => hstore j (List.mem_cons_self _ _) h hj
      rw [if_pos hj]
      rw [List.find?_cons_of_neg _ (by simp [hdoc]), List.find?_cons_of_neg _ (by simp [hjn])]
      exact ih (fun j' hj' hn' => hstore j' (List.mem_cons_of_mem _ hj') hn')
    · rw [if_neg hj]
      by_cases hjn : j.name = n
      · rw [List.find?_cons_of_pos _ (by simp [hjn]), List.find?_cons_of_pos _ (by simp [hjn])]
      · rw [List.find?_cons_of_neg _ (by simp [hjn]), List.find?_cons_of_neg _ (by simp [hjn])]
        exact ih (fun j' hj' hn' => hstore j' (List.mem_cons_of_mem _ hj') hn')

theorem find?_name_edit_self : ∀ (store : List RemoteItem) (i : Nat) (doc : RemoteItem)
    (n : String), doc.name = n → (∀ j ∈ store, (j.name = n ↔ j.id = i)) →
    (store.map fun j => if j.id = i then doc else j).find? (fun j => j.name == n)
      = (store.find? (fun j => j.name == n)).map (fun _ => doc) := by
  intro store i doc n hdoc
  induction store with
  | nil => intro _; rfl
  | cons j rest ih =>
    intro hiff
    simp only [List.map_cons]
    by_cases hj : j.id = i
    · have hjn : j.name = n := (hiff j (List.mem_cons_self _ _)).mpr hj
      rw [if_pos hj]
      rw [List.find?_cons_of_pos _ (by simp [hdoc]), List.find?_cons_of_pos _ (by simp [hjn])]
      rfl
    · have hjn : j.name ≠ n := fun h => hj ((hiff j (List.mem_cons_self _ _)).mp h)
      rw [if_neg hj]
      rw [List.find?_cons_of_neg _ (by simp [hjn]), List.find?_cons_of_neg _ (by simp [hjn])]
      exact ih (fun j' hj' => hiff j' (List.mem_cons_of_mem _ hj'))

theorem find?_name_delete_frame : ∀ (store : List RemoteItem) (i : Nat) (n : String),
    (∀ j ∈ store, j.name = n → j.id ≠ i) →
    (store.filter fun j => j.id != i).find? (fun j => j.name == n)
      = store.find? (fun j => j.name == n) := by
  intro store i n
  induction store with
  | nil => intro _; rfl
  | cons j rest ih =>
    intro hstore
    by_cases hj : j.id = i
    · have hjn : j.name ≠ n := fun h => hstore j (List.mem_cons_self _ _) h hj
      have hb : (j.id != i) = false := by simp [bne, hj]
      simp only [List.filter_cons, hb, Bool.false_eq_true, if_false]
      rw [List.find?_cons_of_neg _ (by simp [hjn])]
      exact ih (fun j' hj' hn' => hstore j' (List.mem_cons_of_mem _ hj') hn')
    · have hb : (j.id != i) = true := by simp [bne_iff_ne, hj]
      simp only [List.filter_cons, hb, if_true]
      by_cases hjn : j.name = n
      · rw [List.find?_cons_of_pos _ (by simp [hjn]), List.find?_cons_of_pos _ (by simp [hjn])]
      · rw [List.find?_cons_of_neg _ (by simp [hjn]), List.find?_cons_of_neg _ (by simp [hjn])]
        exact ih (fun j' hj' hn' => hstore j' (List.mem_cons_of_mem _ hj') hn')

theorem find?_name_delete_all : ∀ (store : List RemoteItem) (i : Nat) (n : String),
    (∀ j ∈ store, j.name = n → j.id = i) →
    (store.filter fun j => j.id != i).find? (fun j => j.name == n) = none := by
  intro store i n
  induction store with
  | nil => intro _; rfl
  | cons j rest ih =>
    intro hstore
    by_cases hj : j.id = i
    · have hb : (j.id != i) = false := by simp [bne, hj]
      simp only [List.filter_cons, hb, Bool.false_eq_true, if_false]
      exact ih (fun j' hj' hn' => hstore j' (List.mem_cons_of_mem _ hj') hn')
    · have hjn : j.name ≠ n := fun h => hj (hstore j (List.mem_cons_self _ _) h)
      have hb : (j.id != i) = true := by simp [bne_iff_ne, hj]
      simp only [List.filter_cons, hb, if_true]
      rw [List.find?_cons_of_neg _ (by simp [hjn])]
      exact ih (fun j' hj' hn' => hstore j' (List.mem_cons_of_mem _ hj') hn')

theorem find?_name_append_ne (store : List RemoteItem) (doc : RemoteItem) (n : String)
    (hdoc : doc.name ≠ n) :
    (store ++ [doc]).find? (fun j => j.name == n) = store.find? (fun j => j.name == n) := by
  rw [List.find?_append]
  rw [show List.find? (fun j => j.name == n) [doc] = none from by
    rw [List.find?_cons_of_neg _ (by simp [hdoc])]
    rfl]
  cases h : store.find? (fun j => j.name == n) <;> rfl

theorem find?_name_append_push (store : List RemoteItem) (doc : RemoteItem) (n : String)
    (hnone : store.find? (fun j => j.name == n) = none) (hdoc : doc.name = n) :
    (store ++ [doc]).find? (fun j => j.name == n) = some doc := by
  rw [List.find?_append, hnone, List.find?_cons_of_pos _ (by simp [hdoc])]
  rfl

theorem mem_edit_cases {store : List RemoteItem} {i : Nat} {doc j : RemoteItem}
    (h : j ∈ bwEditItem store i doc) : j ∈ store ∨ j = doc := by
  unfold bwEditItem at h
  rcases List.mem_map.mp h with ⟨j0, hj0, heq⟩
  by_cases hji : j0.id = i
  · rw [if_pos hji] at heq
    exact Or.inr heq.symm
  · rw [if_neg hji] at heq
    exact Or.inl (heq ▸ hj0)

theorem mem_delete_sub {store : List RemoteItem} {i : Nat} {j : RemoteItem}
    (h : j ∈ bwDeleteItem store i) : j ∈ store :=
  List.mem_of_mem_filter h

theorem remoteNotesOf_eq_none {store : List RemoteItem} {n : String}
    (h : ∀ j ∈ store, j.name ≠ n) : remoteNotesOf store n = none := by
  unfold remoteNotesOf
  rw [List.find?_eq_none.mpr (fun j hj => by simp [h j hj])]
  rfl

/-! ## Trace lemmas -/

theorem decisionOf_cons_self {t : TraceEntry} {tr : List TraceEntry} :
    decisionOf (t :: tr) t.name = some t.decision := by
  unfold decisionOf
  rw [List.find?_cons_of_pos _ (by simp)]
  rfl

theorem decisionOf_cons_ne {t : TraceEntry} {tr : List TraceEntry} {n : String}
    (h : t.name ≠ n) : decisionOf (t :: tr) n = decisionOf tr n := by
  unfold decisionOf
  rw [List.find?_cons_of_neg _ (by simp [h])]

theorem decisionOf_append_left {tr1 tr2 : List TraceEntry} {n : String} {d : Decision}
    (h : decisionOf tr1 n = some d) : decisionOf (tr1 ++ tr2) n = some d := by
  unfold decisionOf at h ⊢
  rw [List.find?_append]
  cases hf : tr1.find? (fun t => t.name == n) with
  | none => rw [hf] at h; simp at h
  | some t =>
    rw [hf] at h
    simp at h
    simp [h]

theorem decisionOf_append_right {tr1 tr2 : List TraceEntry} {n : String}
    (h : ∀ t ∈ tr1, t.name ≠ n) : decisionOf (tr1 ++ tr2) n = decisionOf tr2 n := by
  unfold decisionOf
  rw [List.find?_append, List.find?_eq_none.mpr (fun t ht => by simp [h t ht])]
  rfl

theorem promptedOf_cons_self {t : TraceEntry} {tr : List TraceEntry} :
    promptedOf (t :: tr) t.name = some t.prompted := by
  unfold promptedOf
  rw [List.find?_cons_of_pos _ (by simp)]
  rfl

theorem promptedOf_cons_ne {t : TraceEntry} {tr : List TraceEntry} {n : String}
    (h : t.name ≠ n) : promptedOf (t :: tr) n = promptedOf tr n := by
  unfold promptedOf
  rw [List.find?_cons_of_neg _ (by simp [h])]

theorem promptedOf_append_left {tr1 tr2 : List TraceEntry} {n : String} {q : Option PromptKind}
    (h : promptedOf tr1 n = some q) : promptedOf (tr1 ++ tr2) n = some q := by
  unfold promptedOf at h ⊢
  rw [List.find?_append]
  cases hf : tr1.find? (fun t => t.name == n) with
  | none => rw [hf] at h; simp at h
  | some t =>
    rw [hf] at h
    simp at h
    simp [h]

/-! ## Branch evaluation lemmas for the remote-item loop -/

theorem processItem_notFile {st : SyncState} {item : RemoteItem} {e : LocalEntry}
    (ans : String → String) (le : Bool)
    (h : fsGet st.fs item.name = some e) (hf : e.isFile = false) :
    processItem ans le st item =
      ({ st with remaining := st.remaining.erase item.name },
       { name := item.name, decision := Decision.skip, prompted := none }) := by
  unfold processItem
  rw [h]
  simp [hf]

theorem processItem_equal {st : SyncState} {item : RemoteItem} {e : LocalEntry}
    (ans : String → String) (le : Bool)
    (h : fsGet st.fs item.name = some e) (hf : e.isFile = true)
    (heq : hashDigest (decompress (b64decode item.notes)) = hashDigest e.content) :
    processItem ans le st item =
      ({ st with remaining := st.remaining.erase item.name },
       { name := item.name, decision := Decision.skip, prompted := none }) := by
  unfold processItem
  rw [h]
  simp [hf, heq]

theorem processItem_divergedPull {st : SyncState} {item : RemoteItem} {e : LocalEntry}
    {ans : String → String} (le : Bool)
    (h : fsGet st.fs item.name = some e) (hf : e.isFile = true)
    (hne : hashDigest (decompress (b64decode item.notes)) ≠ hashDigest e.content)
    (ha : ans item.name = "p") :
    processItem ans le st item =
      ({ st with
          fs := fsWrite st.fs item.name (decompress (b64decode item.notes)) 0o400
            item.revisionDate,
          remaining := st.remaining.erase item.name },
       { name := item.name, decision := Decision.pull,
         prompted := some PromptKind.diverged }) := by
  unfold processItem
  rw [h]
  simp [hf, hne, ha]

theorem processItem_divergedPush {st : SyncState} {item : RemoteItem} {e : LocalEntry}
    {ans : String → String} (le : Bool)
    (h : fsGet st.fs item.name = some e) (hf : e.isFile = true)
    (hne : hashDigest (decompress (b64decode item.notes)) ≠ hashDigest e.content)
    (ha : ans item.name = "u") :
    processItem ans le st item =
      ({ st with
          store := bwEditItem st.store item.id
            { item with notes := b64encode (compress e.content) },
          remaining := st.remaining.erase item.name },
       { name := item.name, decision := Decision.push,
         prompted := some PromptKind.diverged }) := by
  unfold processItem
  rw [h]
  simp [hf, hne, ha]

theorem processItem_divergedSkip {st : SyncState} {item : RemoteItem} {e : LocalEntry}
    {ans : String → String} (le : Bool)
    (h : fsGet st.fs item.name = some e) (hf : e.isFile = true)
    (hne : hashDigest (decompress (b64decode item.notes)) ≠ hashDigest e.content)
    (ha1 : ans item.name ≠ "p") (ha2 : ans item.name ≠ "u") :
    processItem ans le st item =
      ({ st with remaining := st.remaining.erase item.name },
       { name := item.name, decision := Decision.skip,
         prompted := some PromptKind.diverged }) := by
  unfold processItem
  rw [h]
  simp [hf, hne]

theorem processItem_freshPull {st : SyncState} {item : RemoteItem}
    (ans : String → String) (h : fsGet st.fs item.name = none) :
    processItem ans true st item =
      ({ st with
          fs := fsWrite st.fs item.name (decompress (b64decode item.notes)) 0o400
            item.revisionDate,
          remaining := st.remaining.erase item.name },
       { name := item.name, decision := Decision.pull, prompted := none }) := by
  unfold processItem
  rw [h]
  simp

theorem processItem_missingDelete {st : SyncState} {item : RemoteItem}
    {ans : String → String} (h : fsGet st.fs item.name = none)
    (ha : ans item.name = "d") :
    processItem ans false st item =
      ({ st with
          store := bwDeleteItem st.store item.id,
          remaining := st.remaining.erase item.name },
       { name := item.name, decision := Decision.deleteRemote,
         prompted := some PromptKind.remoteMissingLocal }) := by
  unfold processItem
  rw [h]
  simp [ha]

theorem processItem_missingPull {st : SyncState} {item : RemoteItem}
    {ans : String → String} (h : fsGet st.fs item.name = none)
    (ha : ans item.name = "p") :
    processItem ans false st item =
      ({ st with
          fs := fsWrite st.fs item.name (decompress (b64decode item.notes)) 0o400
            item.revisionDate,
          remaining := st.remaining.erase item.name },
       { name := item.name, decision := Decision.pull,
         prompted := some PromptKind.remoteMissingLocal }) := by
  unfold processItem
  rw [h]
  simp [ha]

theorem processItem_missingSkip {st : SyncState} {item : RemoteItem}
    {ans : String → String} (h : fsGet st.fs item.name = none)
    (ha1 : ans item.name ≠ "d") (ha2 : ans item.name ≠ "p") :
    processItem ans false st item =
      ({ st with remaining := st.remaining.erase item.name },
       { name := item.name, decision := Decision.skip,
         prompted := some PromptKind.remoteMissingLocal }) := by
  unfold processItem
  rw [h]
  simp

/-! ## Branch evaluation lemmas for the remaining-local loop -/

theorem processLocal_delete {cfg : SyncConfig} {ans : String → String} {fs : LocalFS}
    {store : List RemoteItem} {f : String} (ha : ans f = "d") :
    processLocal cfg ans fs store f =
      ((fsDelete fs f, store),
       { name := f, decision := Decision.deleteLocal,
         prompted := some PromptKind.localUnmatched }) := by
  unfold processLocal
  simp [ha]

theorem processLocal_push {cfg : SyncConfig} {ans : String → String} {fs : LocalFS}
    {store : List RemoteItem} {f : String} (ha : ans f = "u") :
    processLocal cfg ans fs store f =
      ((fs, bwCreateItem store
          { id := freshId store, name := f, itemType := 2,
            notes := b64encode (compress (((fsGet fs f).map LocalEntry.content).getD [])),
            revisionDate := 0, folderId := cfg.folderId }),
       { name := f, decision := Decision.push,
         prompted := some PromptKind.localUnmatched }) := by
  unfold processLocal
  simp [ha]

theorem processLocal_skip {cfg : SyncConfig} {ans : String → String} {fs : LocalFS}
    {store : List RemoteItem} {f : String} (ha1 : ans f ≠ "d") (ha2 : ans f ≠ "u") :
    processLocal cfg ans fs store f =
      ((fs, store),
       { name := f, decision := Decision.skip,
         prompted := some PromptKind.localUnmatched }) := by
  unfold processLocal
  simp

/-! ## Shape of one remote-item step -/

theorem processItem_spec (ans : String → String) (le : Bool) (st : SyncState)
    (item : RemoteItem) :
    (processItem ans le st item).1.remaining = st.remaining.erase item.name ∧
    (processItem ans le st item).2.name = item.name ∧
    (((processItem ans le st item).1.fs = st.fs ∧
       (processItem ans le st item).1.store = st.store ∧
       (processItem ans le st item).2.decision = Decision.skip) ∨
     ((processItem ans le st item).1.fs =
        fsWrite st.fs item.name (decompress (b64decode item.notes)) 0o400 item.revisionDate ∧
       (processItem ans le st item).1.store = st.store) ∨
     (∃ e, fsGet st.fs item.name = some e ∧ e.isFile = true ∧
       (processItem ans le st item).1.fs = st.fs ∧
       (processItem ans le st item).1.store =
         bwEditItem st.store item.id { item with notes := b64encode (compress e.content) }) ∨
     ((processItem ans le st item).1.fs = st.fs ∧
       (processItem ans le st item).1.store = bwDeleteItem st.store item.id)) := by
  cases hg : fsGet st.fs item.name with
  | some e =>
    cases hf : e.isFile with
    | false =>
      rw [processItem_notFile ans le hg hf]
      exact ⟨rfl, rfl, Or.inl ⟨rfl, rfl, rfl⟩⟩
    | true =>
      by_cases hne : hashDigest (decompress (b64decode item.notes)) ≠ hashDigest e.content
      · by_cases hp : ans item.name = "p"
        · rw [processItem_divergedPull le hg hf hne hp]
          exact ⟨rfl, rfl, Or.inr (Or.inl ⟨rfl, rfl⟩)⟩
        · by_cases hu : ans item.name = "u"
          · rw [processItem_divergedPush le hg hf hne hu]
            exact ⟨rfl, rfl, Or.inr (Or.inr (Or.inl ⟨e, rfl, hf, rfl, rfl⟩))⟩
          · rw [processItem_divergedSkip le hg hf hne hp hu]
            exact ⟨rfl, rfl, Or.inl ⟨rfl, rfl, rfl⟩⟩
      · rw [processItem_equal ans le hg hf (not_not.mp hne)]
        exact ⟨rfl, rfl, Or.inl ⟨rfl, rfl, rfl⟩⟩
  | none =>
    cases le with
    | true =>
      rw [processItem_freshPull ans hg]
      exact ⟨rfl, rfl, Or.inr (Or.inl ⟨rfl, rfl⟩)⟩
    | false =>
      by_cases hd : ans item.name = "d"
      · rw [processItem_missingDelete hg hd]
        exact ⟨rfl, rfl, Or.inr (Or.inr (Or.inr ⟨rfl, rfl⟩))⟩
      · by_cases hp : ans item.name = "p"
        · rw [processItem_missingPull hg hp]
          exact ⟨rfl, rfl, Or.inr (Or.inl ⟨rfl, rfl⟩)⟩
        · rw [processItem_missingSkip hg hd hp]
          exact ⟨rfl, rfl, Or.inl ⟨rfl, rfl, rfl⟩⟩

theorem processItem_remaining (ans : String → String) (le : Bool) (st : SyncState)
    (item : RemoteItem) :
    (processItem ans le st item).1.remaining = st.remaining.erase item.name :=
  (processItem_spec ans le st item).1

theorem processItem_trace_name (ans : String → String) (le : Bool) (st : SyncState)
    (item : RemoteItem) :
    (processItem ans le st item).2.name = item.name :=
  (processItem_spec ans le st item).2.1

theorem processItem_fs_ne (ans : String → String) (le : Bool) (st : SyncState)
    (item : RemoteItem) {n : String} (hn : n ≠ item.name) :
    fsGet (processItem ans le st item).1.fs n = fsGet st.fs n := by
  rcases (processItem_spec ans le st item).2.2 with ⟨hfs, -, -⟩ | ⟨hfs, -⟩ |
    ⟨e, -, -, hfs, -⟩ | ⟨hfs, -⟩
  · rw [hfs]
  · rw [hfs, fsWrite_get_ne hn]
  · rw [hfs]
  · rw [hfs]

theorem processItem_fs_isSome (ans : String → String) (le : Bool) (st : SyncState)
    (item : RemoteItem) {n : String} (h : (fsGet st.fs n).isSome = true) :
    (fsGet (processItem ans le st item).1.fs n).isSome = true := by
  rcases (processItem_spec ans le st item).2.2 with ⟨hfs, -, -⟩ | ⟨hfs, -⟩ |
    ⟨e, -, -, hfs, -⟩ | ⟨hfs, -⟩
  · rw [hfs]; exact h
  · rw [hfs]
    by_cases hn : n = item.name
    · subst hn
      cases hg : fsGet st.fs item.name with
      | none => rw [fsWrite_get_self_of_none hg]; rfl
      | some e => rw [fsWrite_get_self_of_some hg]; rfl
    · rw [fsWrite_get_ne hn]; exact h
  · rw [hfs]; exact h
  · rw [hfs]; exact h

theorem processItem_store_name_frame (ans : String → String) (le : Bool) (st : SyncState)
    (item : RemoteItem) {n : String} (hn : item.name ≠ n)
    (hid : ∀ j ∈ st.store, j.name = n → j.id ≠ item.id) :
    remoteNotesOf (processItem ans le st item).1.store n = remoteNotesOf st.store n := by
  rcases (processItem_spec ans le st item).2.2 with ⟨-, hs, -⟩ | ⟨-, hs⟩ |
    ⟨e, -, -, -, hs⟩ | ⟨-, hs⟩
  · rw [hs]
  · rw [hs]
  · rw [hs]
    unfold remoteNotesOf bwEditItem
    rw [find?_name_edit_ne st.store item.id
      { item with notes := b64encode (compress e.content) } n hn hid]
  · rw [hs]
    unfold remoteNotesOf bwDeleteItem
    rw [find?_name_delete_frame st.store item.id n hid]

theorem processItem_store_mem (ans : String → String) (le : Bool) (st : SyncState)
    (item : RemoteItem) {j : RemoteItem}
    (h : j ∈ (processItem ans le st item).1.store) :
    j ∈ st.store ∨ (j.id = item.id ∧ j.name = item.name) := by
  rcases (processItem_spec ans le st item).2.2 with ⟨-, hs, -⟩ | ⟨-, hs⟩ |
    ⟨e, -, -, -, hs⟩ | ⟨-, hs⟩
  · rw [hs] at h; exact Or.inl h
  · rw [hs] at h; exact Or.inl h
  · rw [hs] at h
    rcases mem_edit_cases h with hm | hm
    · exact Or.inl hm
    · subst hm; exact Or.inr ⟨rfl, rfl⟩
  · rw [hs] at h; exact Or.inl (mem_delete_sub h)

theorem FsBytes_fsWrite {fs : LocalFS} (h : FsBytes fs) {d : Bytes}
    (hd : ∀ x ∈ d, x < 256) (n : String) (m t : Nat) : FsBytes (fsWrite fs n d m t) := by
  unfold fsWrite
  by_cases hs : (fsGet fs n).isSome
  · simp only [hs, if_true]
    intro p hp x hx
    rcases List.mem_map.mp hp with ⟨p0, hp0, rfl⟩
    by_cases hk : p0.1 = n
    · simp only [hk, if_pos rfl] at hx
      exact hd x hx
    · simp only [if_neg hk] at hx
      exact h p0 hp0 x hx
  · simp only [hs, Bool.false_eq_true, if_false]
    intro p hp x hx
    rcases List.mem_append.mp hp with hp1 | hp1
    · exact h p hp1 x hx
    · simp at hp1
      subst hp1
      exact hd x hx

theorem FsBytes_fsDelete {fs : LocalFS} (h : FsBytes fs) (n : String) :
    FsBytes (fsDelete fs n) :=
  fun p hp => h p (List.mem_of_mem_filter hp)

theorem processItem_FsBytes (ans : String → String) (le : Bool) (st : SyncState)
    (item : RemoteItem) (h : FsBytes st.fs) :
    FsBytes (processItem ans le st item).1.fs := by
  rcases (processItem_spec ans le st item).2.2 with ⟨hfs, -, -⟩ | ⟨hfs, -⟩ |
    ⟨e, -, -, hfs, -⟩ | ⟨hfs, -⟩
  · rw [hfs]; exact h
  · rw [hfs]
    exact FsBytes_fsWrite h
      (fun x hx => decompress_lt _ (fun z hz => b64decode_lt _ z hz) x hx) _ _ _
  · rw [hfs]; exact h
  · rw [hfs]; exact h

theorem processItem_StoreSub {items : List RemoteItem} (ans : String → String) (le : Bool)
    (st : SyncState) (item : RemoteItem) (hsub : StoreSub items st.store)
    (hmem : item ∈ items) : StoreSub items (processItem ans le st item).1.store := by
  rcases (processItem_spec ans le st item).2.2 with ⟨-, hs, -⟩ | ⟨-, hs⟩ |
    ⟨e, -, -, -, hs⟩ | ⟨-, hs⟩
  · rw [hs]; exact hsub
  · rw [hs]; exact hsub
  · rw [hs]
    intro j hj
    rcases mem_edit_cases hj with hm | hm
    · exact hsub j hm
    · subst hm
      exact ⟨item, hmem, rfl, rfl⟩
  · rw [hs]
    intro j hj
    exact hsub j (mem_delete_sub hj)

/-! ## Remote-loop lemmas -/

theorem runRemote_nil (ans : String → String) (le : Bool) (st : SyncState) :
    runRemote ans le st [] = (st, []) := rfl

theorem runRemote_cons (ans : String → String) (le : Bool) (st : SyncState)
    (item : RemoteItem) (rest : List RemoteItem) :
    runRemote ans le st (item :: rest) =
      ((runRemote ans le (processItem ans le st item).1 rest).1,
       (processItem ans le st item).2 ::
         (runRemote ans le (processItem ans le st item).1 rest).2) := rfl

theorem runRemote_fs_frame (ans : String → String) (le : Bool) :
    ∀ (S : List RemoteItem) (st : SyncState) {n : String}, (∀ i ∈ S, i.name ≠ n) →
    fsGet (runRemote ans le st S).1.fs n = fsGet st.fs n := by
  intro S
  induction S with
  | nil => intro st n _; rfl
  | cons item rest ih =>
    intro st n hS
    rw [runRemote_cons]
    rw [ih (processItem ans le st item).1 (fun i hi => hS i (List.mem_cons_of_mem _ hi))]
    exact processItem_fs_ne ans le st item
      (fun h => hS item (List.mem_cons_self _ _) h.symm)

theorem runRemote_store_frame (ans : String → String) (le : Bool) :
    ∀ (S : List RemoteItem) (st : SyncState) {n : String},
    (∀ i ∈ S, i.name ≠ n) →
    (∀ j ∈ st.store, j.name = n → j.id ∉ S.map RemoteItem.id) →
    remoteNotesOf (runRemote ans le st S).1.store n = remoteNotesOf st.store n := by
  intro S
  induction S with
  | nil => intro st n _ _; rfl
  | cons item rest ih =>
    intro st n hS hid
    rw [runRemote_cons]
    have hstep : remoteNotesOf (processItem ans le st item).1.store n
        = remoteNotesOf st.store n :=
      processItem_store_name_frame ans le st item (hS item (List.mem_cons_self _ _))
        (fun j hj hn hji => hid j hj hn (by simp [hji]))
    have hrest : ∀ j ∈ (processItem ans le st item).1.store, j.name = n →
        j.id ∉ rest.map RemoteItem.id := by
      intro j hj hn
      rcases processItem_store_mem ans le st item hj with hm | ⟨hjid, hjname⟩
      · intro hmem
        exact hid j hm hn (by simp [hmem])
      · exact absurd (hjname ▸ hn) (hS item (List.mem_cons_self _ _))
    rw [ih _ (fun i hi => hS i (List.mem_cons_of_mem _ hi)) hrest, hstep]

theorem runRemote_remaining_sub (ans : String → String) (le : Bool) :
    ∀ (S : List RemoteItem) (st : SyncState),
    (runRemote ans le st S).1.remaining ⊆ st.remaining := by
  intro S
  induction S with
  | nil => intro st x hx; exact hx
  | cons item rest ih =>
    intro st x hx
    rw [runRemote_cons] at hx
    have h1 := ih (processItem ans le st item).1 hx
    rw [processItem_remaining] at h1
    exact List.erase_subset _ _ h1

theorem runRemote_remaining_nodup (ans : String → String) (le : Bool) :
    ∀ (S : List RemoteItem) (st : SyncState), st.remaining.Nodup →
    (runRemote ans le st S).1.remaining.Nodup := by
  intro S
  induction S with
  | nil => intro st h; exact h
  | cons item rest ih =>
    intro st h
    rw [runRemote_cons]
    apply ih
    rw [processItem_remaining]
    exact h.erase _

theorem runRemote_name_notin (ans : String → String) (le : Bool) :
    ∀ (S : List RemoteItem) (st : SyncState), st.remaining.Nodup →
    ∀ i ∈ S, i.name ∉ (runRemote ans le st S).1.remaining := by
  intro S
  induction S with
  | nil => intro st _ i hi; simp at hi
  | cons item rest ih =>
    intro st hnd i hi
    rw [runRemote_cons]
    rcases List.mem_cons.mp hi with rfl | hi'
    · intro hmem
      have h1 := runRemote_remaining_sub ans le rest (processItem ans le st i).1 hmem
      rw [processItem_remaining] at h1
      exact ((List.Nodup.mem_erase_iff hnd).mp h1).1 rfl
    · exact ih (processItem ans le st item).1
        (by rw [processItem_remaining]; exact hnd.erase _) i hi'

theorem runRemote_remaining_mem (ans : String → String) (le : Bool) :
    ∀ (S : List RemoteItem) (st : SyncState) {n : String}, n ∈ st.remaining →
    (∀ i ∈ S, i.name ≠ n) → n ∈ (runRemote ans le st S).1.remaining := by
  intro S
  induction S with
  | nil => intro st n h _; exact h
  | cons item rest ih =>
    intro st n h hS
    rw [runRemote_cons]
    apply ih
    · rw [processItem_remaining]
      exact (List.mem_erase_of_ne (fun he => hS item (List.mem_cons_self _ _) he.symm)).mpr h
    · exact fun i hi => hS i (List.mem_cons_of_mem _ hi)

theorem runRemote_FsBytes (ans : String → String) (le : Bool) :
    ∀ (S : List RemoteItem) (st : SyncState), FsBytes st.fs →
    FsBytes (runRemote ans le st S).1.fs := by
  intro S
  induction S with
  | nil => intro st h; exact h
  | cons item rest ih =>
    intro st h
    rw [runRemote_cons]
    exact ih _ (processItem_FsBytes ans le st item h)

theorem runRemote_StoreSub {items : List RemoteItem} (ans : String → String) (le : Bool) :
    ∀ (S : List RemoteItem) (st : SyncState), S ⊆ items → StoreSub items st.store →
    StoreSub items (runRemote ans le st S).1.store := by
  intro S
  induction S with
  | nil => intro st _ h; exact h
  | cons item rest ih =>
    intro st hsub h
    rw [runRemote_cons]
    exact ih _ (fun i hi => hsub (List.mem_cons_of_mem _ hi))
      (processItem_StoreSub ans le st item h (hsub (List.mem_cons_self _ _)))

theorem runRemote_trace_names (ans : String → String) (le : Bool) :
    ∀ (S : List RemoteItem) (st : SyncState),
    ∀ t ∈ (runRemote ans le st S).2, t.name ∈ S.map RemoteItem.name := by
  intro S
  induction S with
  | nil => intro st t ht; simp [runRemote_nil] at ht
  | cons item rest ih =>
    intro st t ht
    rw [runRemote_cons] at ht
    rcases List.mem_cons.mp ht with rfl | ht'
    · simp [processItem_trace_name]
    · exact List.mem_cons_of_mem _ (ih (processItem ans le st item).1 t ht')

theorem runRemote_fs_isSome (ans : String → String) (le : Bool) :
    ∀ (S : List RemoteItem) (st : SyncState) {n : String},
    (fsGet st.fs n).isSome = true →
    (fsGet (runRemote ans le st S).1.fs n).isSome = true := by
  intro S
  induction S with
  | nil => intro st n h; exact h
  | cons item rest ih =>
    intro st n h
    rw [runRemote_cons]
    exact ih _ (processItem_fs_isSome ans le st item h)

/-! ## Remaining-local loop lemmas -/

theorem runLocal_nil (cfg : SyncConfig) (ans : String → String)
    (s : LocalFS × List RemoteItem) : runLocal cfg ans s [] = (s, []) := rfl

theorem runLocal_cons (cfg : SyncConfig) (ans : String → String)
    (s : LocalFS × List RemoteItem) (f : String) (rest : List String) :
    runLocal cfg ans s (f :: rest) =
      ((runLocal cfg ans (processLocal cfg ans s.1 s.2 f).1 rest).1,
       (processLocal cfg ans s.1 s.2 f).2 ::
         (runLocal cfg ans (processLocal cfg ans s.1 s.2 f).1 rest).2) := rfl

theorem processLocal_spec (cfg : SyncConfig) (ans : String → String) (fs : LocalFS)
    (store : List RemoteItem) (f : String) :
    (processLocal cfg ans fs store f).2.name = f ∧
    (((processLocal cfg ans fs store f).1.1 = fsDelete fs f ∧
       (processLocal cfg ans fs store f).1.2 = store) ∨
     ((processLocal cfg ans fs store f).1.1 = fs ∧
       (processLocal cfg ans fs store f).1.2 = store ++
         [{ id := freshId store, name := f, itemType := 2,
            notes := b64encode (compress (((fsGet fs f).map LocalEntry.content).getD [])),
            revisionDate := 0, folderId := cfg.folderId }]) ∨
     ((processLocal cfg ans fs store f).1.1 = fs ∧
       (processLocal cfg ans fs store f).1.2 = store)) := by
  by_cases hd : ans f = "d"
  · rw [processLocal_delete hd]
    exact ⟨rfl, Or.inl ⟨rfl, rfl⟩⟩
  · by_cases hu : ans f = "u"
    · rw [processLocal_push hu]
      exact ⟨rfl, Or.inr (Or.inl ⟨rfl, rfl⟩)⟩
    · rw [processLocal_skip hd hu]
      exact ⟨rfl, Or.inr (Or.inr ⟨rfl, rfl⟩)⟩

theorem processLocal_trace_name (cfg : SyncConfig) (ans : String → String) (fs : LocalFS)
    (store : List RemoteItem) (f : String) :
    (processLocal cfg ans fs store f).2.name = f :=
  (processLocal_spec cfg ans fs store f).1

theorem processLocal_fs_ne (cfg : SyncConfig) (ans : String → String) (fs : LocalFS)
    (store : List RemoteItem) (f : String) {n : String} (hn : n ≠ f) :
    fsGet (processLocal cfg ans fs store f).1.1 n = fsGet fs n := by
  rcases (processLocal_spec cfg ans fs store f).2 with ⟨hfs, -⟩ | ⟨hfs, -⟩ | ⟨hfs, -⟩
  · rw [hfs, fsDelete_get_ne hn]
  · rw [hfs]
  · rw [hfs]

theorem processLocal_store_ne (cfg : SyncConfig) (ans : String → String) (fs : LocalFS)
    (store : List RemoteItem) (f : String) {n : String} (hn : f ≠ n) :
    remoteNotesOf (processLocal cfg ans fs store f).1.2 n = remoteNotesOf store n := by
  rcases (processLocal_spec cfg ans fs store f).2 with ⟨-, hs⟩ | ⟨-, hs⟩ | ⟨-, hs⟩
  · rw [hs]
  · rw [hs]
    unfold remoteNotesOf
    rw [find?_name_append_ne _ _ _ hn]
  · rw [hs]

theorem processLocal_FsBytes (cfg : SyncConfig) (ans : String → String) (fs : LocalFS)
    (store : List RemoteItem) (f : String) (h : FsBytes fs) :
    FsBytes (processLocal cfg ans fs store f).1.1 := by
  rcases (processLocal_spec cfg ans fs store f).2 with ⟨hfs, -⟩ | ⟨hfs, -⟩ | ⟨hfs, -⟩
  · rw [hfs]; exact FsBytes_fsDelete h f
  · rw [hfs]; exact h
  · rw [hfs]; exact h

theorem runLocal_fs_frame (cfg : SyncConfig) (ans : String → String) :
    ∀ (F : List String) (s : LocalFS × List RemoteItem) {n : String},
    (∀ f ∈ F, f ≠ n) → fsGet (runLocal cfg ans s F).1.1 n = fsGet s.1 n := by
  intro F
  induction F with
  | nil => intro s n _; rfl
  | cons f rest ih =>
    intro s n hF
    rw [runLocal_cons]
    rw [ih (processLocal cfg ans s.1 s.2 f).1 (fun g hg => hF g (List.mem_cons_of_mem _ hg))]
    exact processLocal_fs_ne cfg ans s.1 s.2 f
      (fun h => hF f (List.mem_cons_self _ _) h.symm)

theorem runLocal_store_frame (cfg : SyncConfig) (ans : String → String) :
    ∀ (F : List String) (s : LocalFS × List RemoteItem) {n : String},
    (∀ f ∈ F, f ≠ n) →
    remoteNotesOf (runLocal cfg ans s F).1.2 n = remoteNotesOf s.2 n := by
  intro F
  induction F with
  | nil => intro s n _; rfl
  | cons f rest ih =>
    intro s n hF
    rw [runLocal_cons]
    rw [ih (processLocal cfg ans s.1 s.2 f).1 (fun g hg => hF g (List.mem_cons_of_mem _ hg))]
    exact processLocal_store_ne cfg ans s.1 s.2 f (hF f (List.mem_cons_self _ _))

theorem runLocal_trace_names (cfg : SyncConfig) (ans : String → String) :
    ∀ (F : List String) (s : LocalFS × List RemoteItem),
    ∀ t ∈ (runLocal cfg ans s F).2, t.name ∈ F := by
  intro F
  induction F with
  | nil => intro s t ht; simp [runLocal_nil] at ht
  | cons f rest ih =>
    intro s t ht
    rw [runLocal_cons] at ht
    rcases List.mem_cons.mp ht with rfl | ht'
    · simp [processLocal_trace_name]
    · exact List.mem_cons_of_mem _ (ih (processLocal cfg ans s.1 s.2 f).1 t ht')

/-! ## Observer helper lemmas -/

theorem localFileContent_some {fs : LocalFS} {n : String} {e : LocalEntry}
    (h : fsGet fs n = some e) :
    localFileContent fs n = if e.isFile then some e.content else none := by
  unfold localFileContent
  rw [h]

theorem localFileContent_none {fs : LocalFS} {n : String} (h : fsGet fs n = none) :
    localFileContent fs n = none := by
  unfold localFileContent
  rw [h]

theorem localFileContent_congr {fs1 fs2 : LocalFS} {n : String}
    (h : fsGet fs1 n = fsGet fs2 n) : localFileContent fs1 n = localFileContent fs2 n := by
  unfold localFileContent
  rw [h]

theorem remoteNotesOf_congr {s1 s2 : List RemoteItem} {n : String}
    (h : s1.find? (fun j => j.name == n) = s2.find? (fun j => j.name == n)) :
    remoteNotesOf s1 n = remoteNotesOf s2 n := by
  unfold remoteNotesOf
  rw [h]

/-! ## Consistency of the remaining-local loop -/

theorem runLocal_consistent (cfg : SyncConfig) (ans : String → String) :
    ∀ (F : List String) (s : LocalFS × List RemoteItem), F.Nodup → FsBytes s.1 →
    ∀ f ∈ F, remoteNotesOf s.2 f = none →
    NameConsistent (runLocal cfg ans s F).1.1 (runLocal cfg ans s F).1.2
      (runLocal cfg ans s F).2 f := by
  intro F
  induction F with
  | nil => intro s _ _ f hf; simp at hf
  | cons f0 rest ih =>
    intro s hnd hFB f hf hnone
    have hf0_notin : f0 ∉ rest := (List.nodup_cons.mp hnd).1
    have hnd_tail : rest.Nodup := (List.nodup_cons.mp hnd).2
    have hfs_eq : (runLocal cfg ans s (f0 :: rest)).1.1
        = (runLocal cfg ans (processLocal cfg ans s.1 s.2 f0).1 rest).1.1 := by
      rw [runLocal_cons]
    have hstore_eq : (runLocal cfg ans s (f0 :: rest)).1.2
        = (runLocal cfg ans (processLocal cfg ans s.1 s.2 f0).1 rest).1.2 := by
      rw [runLocal_cons]
    have htr_eq : (runLocal cfg ans s (f0 :: rest)).2
        = (processLocal cfg ans s.1 s.2 f0).2 ::
            (runLocal cfg ans (processLocal cfg ans s.1 s.2 f0).1 rest).2 := by
      rw [runLocal_cons]
    rcases List.mem_cons.mp hf with heq | hf'
    · subst heq
      have hrest_ne : ∀ g ∈ rest, g ≠ f := fun g hg he => hf0_notin (he ▸ hg)
      have hfr_fs : fsGet (runLocal cfg ans (processLocal cfg ans s.1 s.2 f).1 rest).1.1 f
          = fsGet (processLocal cfg ans s.1 s.2 f).1.1 f :=
        runLocal_fs_frame cfg ans rest _ hrest_ne
      have hfr_store :
          remoteNotesOf (runLocal cfg ans (processLocal cfg ans s.1 s.2 f).1 rest).1.2 f
          = remoteNotesOf (processLocal cfg ans s.1 s.2 f).1.2 f :=
        runLocal_store_frame cfg ans rest _ hrest_ne
      intro c p hc hp
      rw [hfs_eq, localFileContent_congr hfr_fs] at hc
      rw [hstore_eq, hfr_store] at hp
      have hnone' : List.find? (fun j => j.name == f) s.2 = none := by
        have h0 := hnone
        unfold remoteNotesOf at h0
        cases hq : List.find? (fun j => j.name == f) s.2
        · rfl
        · rw [hq] at h0; simp at h0
      rcases (processLocal_spec cfg ans s.1 s.2 f).2 with ⟨hfs1, hs1⟩ | ⟨hfs1, hs1⟩ |
        ⟨hfs1, hs1⟩
      · rw [localFileContent_none (by rw [hfs1]; exact fsDelete_get_self _ _)] at hc
        cases hc
      · cases hg : fsGet s.1 f with
        | none =>
          rw [localFileContent_none (by rw [hfs1]; exact hg)] at hc
          cases hc
        | some e =>
          rw [localFileContent_some (show fsGet (processLocal cfg ans s.1 s.2 f).1.1 f
            = some e from by rw [hfs1]; exact hg)] at hc
          cases hisf : e.isFile with
          | false => rw [hisf] at hc; simp at hc
          | true =>
            rw [hisf] at hc
            simp only [if_true] at hc
            have hc' : e.content = c := by simpa using hc
            rw [hs1] at hp
            unfold remoteNotesOf at hp
            rw [find?_name_append_push s.2 _ f hnone' rfl] at hp
            have hp' : b64encode (compress (((fsGet s.1 f).map LocalEntry.content).getD []))
                = p := by simpa using hp
            rw [hg] at hp'
            simp only [Option.map_some', Option.getD_some] at hp'
            left
            rw [← hc', ← hp']
            have hb : ∀ x ∈ e.content, x < 256 := hFB (f, e) (fsGet_mem hg)
            unfold remoteFingerprint
            rw [b64decode_encode _ (compress_lt _ hb), decompress_compress]
      · rw [hs1] at hp
        unfold remoteNotesOf at hp
        rw [hnone'] at hp
        simp at hp
    · have hne0 : f0 ≠ f := fun he => hf0_notin (he ▸ hf')
      have NC := ih (processLocal cfg ans s.1 s.2 f0).1 hnd_tail
        (processLocal_FsBytes cfg ans s.1 s.2 f0 hFB) f hf'
        (by rw [processLocal_store_ne cfg ans s.1 s.2 f0 hne0]; exact hnone)
      intro c p hc hp
      rw [hfs_eq] at hc
      rw [hstore_eq] at hp
      rcases NC c p hc hp with h | h
      · exact Or.inl h
      · right
        rw [htr_eq, decisionOf_cons_ne (by rw [processLocal_trace_name]; exact hne0), h]

/-! ## Consistency of the remote-item loop -/

theorem runRemote_consistent (ans : String → String) (le : Bool)
    (items : List RemoteItem) (hids : (items.map RemoteItem.id).Nodup) :
    ∀ (S : List RemoteItem) (st : SyncState),
    (S.map RemoteItem.name).Nodup → (∀ i ∈ S, i ∈ items) →
    StoreSub items st.store →
    (∀ j ∈ st.store, ∀ i ∈ S, j.name = i.name → j.id = i.id) →
    (∀ j ∈ st.store, ∀ i ∈ S, j.id = i.id → j.notes = i.notes) →
    FsBytes st.fs →
    ∀ i ∈ S, NameConsistent (runRemote ans le st S).1.fs
      (runRemote ans le st S).1.store (runRemote ans le st S).2 i.name := by
  intro S
  induction S with
  | nil => intro st _ _ _ _ _ _ i hi; simp at hi
  | cons i0 rest ih =>
    intro st hnames hsub hss hnameid hpending hFB i hi
    have hnames_tail : (rest.map RemoteItem.name).Nodup := by
      simp only [List.map_cons, List.nodup_cons] at hnames
      exact hnames.2
    have hhead_notin : i0.name ∉ rest.map RemoteItem.name := by
      simp only [List.map_cons, List.nodup_cons] at hnames
      exact hnames.1
    have hsub_tail : ∀ i' ∈ rest, i' ∈ items :=
      fun i' h => hsub i' (List.mem_cons_of_mem _ h)
    have hi0_items : i0 ∈ items := hsub i0 (List.mem_cons_self _ _)
    have hid_inj : ∀ a ∈ items, ∀ b ∈ items, a.id = b.id → a = b :=
      fun a ha b hb h => List.inj_on_of_nodup_map hids ha hb h
    have hss1 : StoreSub items (processItem ans le st i0).1.store :=
      processItem_StoreSub ans le st i0 hss hi0_items
    have hnameid1 : ∀ j ∈ (processItem ans le st i0).1.store, ∀ i' ∈ rest,
        j.name = i'.name → j.id = i'.id := by
      intro j hj i' hi' hn
      rcases processItem_store_mem ans le st i0 hj with hm | ⟨hjid, hjname⟩
      · exact hnameid j hm i' (List.mem_cons_of_mem _ hi') hn
      · exfalso
        apply hhead_notin
        rw [← hjname, hn]
        exact List.mem_map_of_mem _ hi'
    have hpending1 : ∀ j ∈ (processItem ans le st i0).1.store, ∀ i' ∈ rest,
        j.id = i'.id → j.notes = i'.notes := by
      intro j hj i' hi' hid
      rcases processItem_store_mem ans le st i0 hj with hm | ⟨hjid, hjname⟩
      · exact hpending j hm i' (List.mem_cons_of_mem _ hi') hid
      · exfalso
        have he : i' = i0 := hid_inj i' (hsub_tail i' hi') i0 hi0_items (by rw [← hid, hjid])
        apply hhead_notin
        rw [← he]
        exact List.mem_map_of_mem _ hi'
    have hFB1 : FsBytes (processItem ans le st i0).1.fs :=
      processItem_FsBytes ans le st i0 hFB
    have hfs_eq : (runRemote ans le st (i0 :: rest)).1.fs
        = (runRemote ans le (processItem ans le st i0).1 rest).1.fs := by
      rw [runRemote_cons]
    have hstore_eq : (runRemote ans le st (i0 :: rest)).1.store
        = (runRemote ans le (processItem ans le st i0).1 rest).1.store := by
      rw [runRemote_cons]
    have htr_eq : (runRemote ans le st (i0 :: rest)).2
        = (processItem ans le st i0).2 ::
            (runRemote ans le (processItem ans le st i0).1 rest).2 := by
      rw [runRemote_cons]
    have htname : (processItem ans le st i0).2.name = i0.name :=
      processItem_trace_name ans le st i0
    rcases List.mem_cons.mp hi with heq | hi'
    · subst heq
      have hrest_names : ∀ i' ∈ rest, i'.name ≠ i.name :=
        fun i' h he => hhead_notin (he ▸ List.mem_map_of_mem _ h)
      have hid_notin : i.id ∉ rest.map RemoteItem.id := by
        intro hmem
        rcases List.mem_map.mp hmem with ⟨i', hi'', heq2⟩
        have he : i' = i := hid_inj i' (hsub_tail i' hi'') i hi0_items heq2
        subst he
        exact hhead_notin (List.mem_map_of_mem _ hi'')
      have hfr_fs : fsGet (runRemote ans le (processItem ans le st i).1 rest).1.fs i.name
          = fsGet (processItem ans le st i).1.fs i.name :=
        runRemote_fs_frame ans le rest _ hrest_names
      have hfr_store :
          remoteNotesOf (runRemote ans le (processItem ans le st i).1 rest).1.store i.name
          = remoteNotesOf (processItem ans le st i).1.store i.name := by
        apply runRemote_store_frame ans le rest _ hrest_names
        intro j hj hn
        rcases processItem_store_mem ans le st i hj with hm | ⟨hjid, -⟩
        · rw [hnameid j hm i (List.mem_cons_self _ _) hn]
          exact hid_notin
        · rw [hjid]
          exact hid_notin
      intro c p hc hp
      rw [hfs_eq, localFileContent_congr hfr_fs] at hc
      rw [hstore_eq, hfr_store] at hp
      rcases (processItem_spec ans le st i).2.2 with ⟨hfs1, hs1, hdec⟩ | ⟨hfs1, hs1⟩ |
        ⟨e, hg, hisf, hfs1, hs1⟩ | ⟨hfs1, hs1⟩
      · right
        rw [htr_eq, ← htname, decisionOf_cons_self, hdec]
      · -- pull: local content becomes the decompressed payload
        rw [hs1] at hp
        cases hg2 : fsGet st.fs i.name with
        | none =>
          rw [localFileContent_some (show fsGet (processItem ans le st i).1.fs i.name = _ from
            by rw [hfs1]; exact fsWrite_get_self_of_none hg2 _ _ _)] at hc
          simp only [if_true] at hc
          have hc' : decompress (b64decode i.notes) = c := by simpa using hc
          unfold remoteNotesOf at hp
          cases hf2 : st.store.find? (fun j => j.name == i.name) with
          | none => rw [hf2] at hp; simp at hp
          | some j =>
            rw [hf2] at hp
            simp only [Option.map_some'] at hp
            have hjmem := List.mem_of_find?_eq_some hf2
            have hjname : j.name = i.name := by simpa using List.find?_some hf2
            have hjid : j.id = i.id := hnameid j hjmem i (List.mem_cons_self _ _) hjname
            have hjnotes : j.notes = i.notes :=
              hpending j hjmem i (List.mem_cons_self _ _) hjid
            have hp' : p = i.notes := by
              rw [← hjnotes]
              exact (Option.some.injEq _ _ ▸ hp).symm
            left
            rw [← hc', hp']
            rfl
        | some e2 =>
          rw [localFileContent_some (show fsGet (processItem ans le st i).1.fs i.name = _ from
            by rw [hfs1]; exact fsWrite_get_self_of_some hg2 _ _ _)] at hc
          cases hisf2 : e2.isFile with
          | false => rw [hisf2] at hc; simp at hc
          | true =>
            rw [hisf2] at hc
            simp only [if_true] at hc
            have hc' : decompress (b64decode i.notes) = c := by simpa using hc
            unfold remoteNotesOf at hp
            cases hf2 : st.store.find? (fun j => j.name == i.name) with
            | none => rw [hf2] at hp; simp at hp
            | some j =>
              rw [hf2] at hp
              simp only [Option.map_some'] at hp
              have hjmem := List.mem_of_find?_eq_some hf2
              have hjname : j.name = i.name := by simpa using List.find?_some hf2
              have hjid : j.id = i.id := hnameid j hjmem i (List.mem_cons_self _ _) hjname
              have hjnotes : j.notes = i.notes :=
                hpending j hjmem i (List.mem_cons_self _ _) hjid
              have hp' : p = i.notes := by
                rw [← hjnotes]
                exact (Option.some.injEq _ _ ▸ hp).symm
              left
              rw [← hc', hp']
              rfl
      · -- push: the remote payload becomes the compressed local content
        rw [localFileContent_some (show fsGet (processItem ans le st i).1.fs i.name = some e
          from by rw [hfs1]; exact hg)] at hc
        rw [hisf] at hc
        simp only [if_true] at hc
        have hc' : e.content = c := by simpa using hc
        rw [hs1] at hp
        have hiff : ∀ j ∈ st.store, (j.name = i.name ↔ j.id = i.id) := by
          intro j hj
          constructor
          · exact fun h => hnameid j hj i (List.mem_cons_self _ _) h
          · intro h
            rcases hss j hj with ⟨i', hi'', hid', hname'⟩
            have he : i' = i := hid_inj i' hi'' i hi0_items (by rw [← hid', h])
            rw [hname', he]
        unfold remoteNotesOf bwEditItem at hp
        rw [find?_name_edit_self st.store i.id
          { i with notes := b64encode (compress e.content) } i.name rfl hiff] at hp
        cases hf2 : st.store.find? (fun j => j.name == i.name) with
        | none => rw [hf2] at hp; simp at hp
        | some j =>
          rw [hf2] at hp
          simp only [Option.map_some'] at hp
          have hp' : b64encode (compress e.content) = p := by simpa using hp
          left
          rw [← hc', ← hp']
          have hb : ∀ x ∈ e.content, x < 256 := hFB (i.name, e) (fsGet_mem hg)
          unfold remoteFingerprint
          rw [b64decode_encode _ (compress_lt _ hb), decompress_compress]
      · -- delete-remote: no remote item named this way survives
        rw [hs1] at hp
        have hall : ∀ j ∈ st.store, j.name = i.name → j.id = i.id :=
          fun j hj h => hnameid j hj i (List.mem_cons_self _ _) h
        unfold remoteNotesOf bwDeleteItem at hp
        rw [find?_name_delete_all st.store i.id i.name hall] at hp
        simp at hp
    · have hne : (processItem ans le st i0).2.name ≠ i.name := by
        rw [htname]
        exact fun he => hhead_notin (he ▸ List.mem_map_of_mem _ hi')
      have NC := ih (processItem ans le st i0).1 hnames_tail hsub_tail hss1 hnameid1
        hpending1 hFB1 i hi'
      intro c p hc hp
      rw [hfs_eq] at hc
      rw [hstore_eq] at hp
      rcases NC c p hc hp with h | h
      · exact Or.inl h
      · right
        rw [htr_eq, decisionOf_cons_ne hne, h]

/-! ## Glue: the full run -/

theorem run_parts (cfg : SyncConfig) (fs0 : LocalFS) (items : List RemoteItem)
    (answer : String → String) :
    run cfg fs0 items answer =
      ((runLocal cfg answer
          ((phase1 cfg fs0 items answer).1.fs, (phase1 cfg fs0 items answer).1.store)
          (phase1 cfg fs0 items answer).1.remaining).1,
       (phase1 cfg fs0 items answer).2 ++
         (runLocal cfg answer
           ((phase1 cfg fs0 items answer).1.fs, (phase1 cfg fs0 items answer).1.store)
           (phase1 cfg fs0 items answer).1.remaining).2) := rfl

theorem candidates_nodup {cfg : SyncConfig} {fs : LocalFS}
    (h : (fs.map Prod.fst).Nodup) : (candidates cfg fs).Nodup := by
  unfold candidates
  exact h.sublist ((fs.filter_sublist).map Prod.fst)

theorem mem_candidates {cfg : SyncConfig} {fs : LocalFS} {n : String}
    (hnd : (fs.map Prod.fst).Nodup) (h : n ∈ candidates cfg fs) :
    ∃ e, fsGet fs n = some e ∧ e.isFile = true := by
  unfold candidates at h
  rcases List.mem_map.mp h with ⟨⟨k, e⟩, hmem, rfl⟩
  have hc := List.of_mem_filter hmem
  unfold isCandidate at hc
  simp only [Bool.and_eq_true] at hc
  exact ⟨e, fsGet_of_mem_nodup hnd (List.mem_of_mem_filter hmem), hc.1.1⟩

theorem ignored_not_mem_candidates {cfg : SyncConfig} {fs : LocalFS} {n : String}
    (h : cfg.ignored n = true) : n ∉ candidates cfg fs := by
  intro hmem
  unfold candidates at hmem
  rcases List.mem_map.mp hmem with ⟨⟨k, e⟩, hm, heq⟩
  have hc := List.of_mem_filter hm
  unfold isCandidate at hc
  rw [heq] at hc
  simp [h] at hc

/-- Claim C1: after a full reconciliation pass in which every decision was
executed, for every name present in the remote item list or the original
local candidate set, either the local file's fingerprint equals the
fingerprint of the decompressed remote payload, or the name exists in only
one of the two sets (`NameConsistent` makes the hypothesis that both exist
explicit); skip — including skip from an unrecognized prompt response — is
the only decision after which the two fingerprints may still differ for a
name present in both sets.  The hypotheses reflect the data model: directory
listings carry no duplicate names, the MatchKey invariant gives remote items
distinct names, the store assigns distinct ids, and file contents are
bytes. -/
theorem c1_reconciliation_invariant (cfg : SyncConfig) (fs0 : LocalFS)
    (items : List RemoteItem) (answer : String → String)
    (hkeys : (fs0.map Prod.fst).Nodup)
    (hnames : (items.map RemoteItem.name).Nodup)
    (hids : (items.map RemoteItem.id).Nodup)
    (hbytes : FsBytes fs0) :
    ∀ n, n ∈ items.map RemoteItem.name ∨ n ∈ candidates cfg fs0 →
    NameConsistent (run cfg fs0 items answer).1.1 (run cfg fs0 items answer).1.2
      (run cfg fs0 items answer).2 n := by
  have hproj_fs : (run cfg fs0 items answer).1.1 =
      (runLocal cfg answer
        ((phase1 cfg fs0 items answer).1.fs, (phase1 cfg fs0 items answer).1.store)
        (phase1 cfg fs0 items answer).1.remaining).1.1 := by rw [run_parts]
  have hproj_store : (run cfg fs0 items answer).1.2 =
      (runLocal cfg answer
        ((phase1 cfg fs0 items answer).1.fs, (phase1 cfg fs0 items answer).1.store)
        (phase1 cfg fs0 items answer).1.remaining).1.2 := by rw [run_parts]
  have hproj_tr : (run cfg fs0 items answer).2 =
      (phase1 cfg fs0 items answer).2 ++
        (runLocal cfg answer
          ((phase1 cfg fs0 items answer).1.fs, (phase1 cfg fs0 items answer).1.store)
          (phase1 cfg fs0 items answer).1.remaining).2 := by rw [run_parts]
  have hnd_rem : (candidates cfg fs0).Nodup := candidates_nodup hkeys
  have hss0 : StoreSub items items := fun j hj => ⟨j, hj, rfl, rfl⟩
  have hnameid0 : ∀ j ∈ items, ∀ i ∈ items, j.name = i.name → j.id = i.id := by
    intro j hj i hi h
    rw [List.inj_on_of_nodup_map hnames hj hi h]
  have hpending0 : ∀ j ∈ items, ∀ i ∈ items, j.id = i.id → j.notes = i.notes := by
    intro j hj i hi h
    rw [List.inj_on_of_nodup_map hids hj hi h]
  have hFB1 : FsBytes (phase1 cfg fs0 items answer).1.fs :=
    runRemote_FsBytes _ _ items _ hbytes
  have hSS1 : StoreSub items (phase1 cfg fs0 items answer).1.store :=
    runRemote_StoreSub _ _ items _ (fun _ h => h) hss0
  have hmain : ∀ i ∈ items,
      NameConsistent (run cfg fs0 items answer).1.1 (run cfg fs0 items answer).1.2
        (run cfg fs0 items answer).2 i.name := by
    intro i hi
    have hC1 := runRemote_consistent answer (candidates cfg fs0).isEmpty items hids items
      { fs := fs0, store := items, remaining := candidates cfg fs0 }
      hnames (fun _ h => h) hss0 hnameid0 hpending0 hbytes i hi
    have hnotin : i.name ∉ (phase1 cfg fs0 items answer).1.remaining :=
      runRemote_name_notin _ _ items _ hnd_rem i hi
    have hframe_cond : ∀ f ∈ (phase1 cfg fs0 items answer).1.remaining, f ≠ i.name :=
      fun f hf he => hnotin (he ▸ hf)
    have hf2 := runLocal_fs_frame cfg answer (phase1 cfg fs0 items answer).1.remaining
      ((phase1 cfg fs0 items answer).1.fs, (phase1 cfg fs0 items answer).1.store)
      hframe_cond
    have hs2 := runLocal_store_frame cfg answer (phase1 cfg fs0 items answer).1.remaining
      ((phase1 cfg fs0 items answer).1.fs, (phase1 cfg fs0 items answer).1.store)
      hframe_cond
    intro c p hc hp
    rw [hproj_fs, localFileContent_congr hf2] at hc
    rw [hproj_store, hs2] at hp
    rcases hC1 c p hc hp with h | h
    · exact Or.inl h
    · right
      rw [hproj_tr]
      exact decisionOf_append_left h
  intro n hn
  by_cases hmem : n ∈ items.map RemoteItem.name
  · rcases List.mem_map.mp hmem with ⟨i, hi, rfl⟩
    exact hmain i hi
  · have hn_cand : n ∈ candidates cfg fs0 := by
      rcases hn with h | h
      · exact absurd h hmem
      · exact h
    have hnoitem : ∀ i ∈ items, i.name ≠ n :=
      fun i hi he => hmem (he ▸ List.mem_map_of_mem _ hi)
    have hinrem : n ∈ (phase1 cfg fs0 items answer).1.remaining :=
      runRemote_remaining_mem _ _ items _ hn_cand hnoitem
    have hnone : remoteNotesOf (phase1 cfg fs0 items answer).1.store n = none := by
      apply remoteNotesOf_eq_none
      intro j hj
      rcases hSS1 j hj with ⟨i', hi', -, hname'⟩
      rw [hname']
      exact hnoitem i' hi'
    have NC := runLocal_consistent cfg answer (phase1 cfg fs0 items answer).1.remaining
      ((phase1 cfg fs0 items answer).1.fs, (phase1 cfg fs0 items answer).1.store)
      (runRemote_remaining_nodup _ _ items _ hnd_rem) hFB1 n hinrem hnone
    intro c p hc hp
    rw [hproj_fs] at hc
    rw [hproj_store] at hp
    rcases NC c p hc hp with h | h
    · exact Or.inl h
    · right
      have htr1 : ∀ t ∈ (phase1 cfg fs0 items answer).2, t.name ≠ n := by
        intro t ht
        have hmm := runRemote_trace_names answer (candidates cfg fs0).isEmpty items
          { fs := fs0, store := items, remaining := candidates cfg fs0 } t ht
        rcases List.mem_map.mp hmm with ⟨i', hi', heq⟩
        rw [← heq]
        exact hnoitem i' hi'
      rw [hproj_tr, decisionOf_append_right htr1]
      exact h

/-! ## Fresh-client lemmas -/

theorem find?_name_self : ∀ {items : List RemoteItem},
    (items.map RemoteItem.name).Nodup →
    ∀ {i : RemoteItem}, i ∈ items → items.find? (fun j => j.name == i.name) = some i := by
  intro items
  induction items with
  | nil => intro _ i hi; simp at hi
  | cons j rest ih =>
    intro hnd i hi
    have hj_notin : j.name ∉ rest.map RemoteItem.name := (List.nodup_cons.mp hnd).1
    rcases List.mem_cons.mp hi with heq | hi'
    · subst heq
      exact List.find?_cons_of_pos _ (by simp)
    · have hne : j.name ≠ i.name := fun he => hj_notin (he ▸ List.mem_map_of_mem _ hi')
      rw [List.find?_cons_of_neg _ (by simp [hne])]
      exact ih (List.nodup_cons.mp hnd).2 hi'

theorem runRemote_freshPull (ans : String → String) :
    ∀ (S : List RemoteItem) (st : SyncState), (S.map RemoteItem.name).Nodup →
    (∀ i ∈ S, fsGet st.fs i.name = none) →
    (runRemote ans true st S).1.store = st.store ∧
    ∀ i ∈ S,
      (runRemote ans true st S).2.find? (fun t => t.name == i.name) =
        some { name := i.name, decision := Decision.pull, prompted := none } ∧
      fsGet (runRemote ans true st S).1.fs i.name =
        some { isFile := true, content := decompress (b64decode i.notes), mode := 0o400,
               mtimeMs := i.revisionDate } := by
  intro S
  induction S with
  | nil => intro st _ _; exact ⟨rfl, by intro i hi; simp at hi⟩
  | cons i0 rest ih =>
    intro st hnd hnone
    have hstep := processItem_freshPull ans (hnone i0 (List.mem_cons_self _ _))
    have hnd_tail : (rest.map RemoteItem.name).Nodup := (List.nodup_cons.mp hnd).2
    have hhead_notin : i0.name ∉ rest.map RemoteItem.name := (List.nodup_cons.mp hnd).1
    have hstep_fs : (processItem ans true st i0).1.fs
        = fsWrite st.fs i0.name (decompress (b64decode i0.notes)) 0o400 i0.revisionDate := by
      rw [hstep]
    have hstep_store : (processItem ans true st i0).1.store = st.store := by
      rw [hstep]
    have hstep_tr : (processItem ans true st i0).2
        = { name := i0.name, decision := Decision.pull, prompted := none } := by
      rw [hstep]
    have hnone1 : ∀ i ∈ rest, fsGet (processItem ans true st i0).1.fs i.name = none := by
      intro i hi
      have hne : i.name ≠ i0.name := fun he => hhead_notin (he ▸ List.mem_map_of_mem _ hi)
      rw [hstep_fs, fsWrite_get_ne hne]
      exact hnone i (List.mem_cons_of_mem _ hi)
    have hih := ih (processItem ans true st i0).1 hnd_tail hnone1
    have hfs_eq : (runRemote ans true st (i0 :: rest)).1.fs
        = (runRemote ans true (processItem ans true st i0).1 rest).1.fs := by
      rw [runRemote_cons]
    have hstore_eq : (runRemote ans true st (i0 :: rest)).1.store
        = (runRemote ans true (processItem ans true st i0).1 rest).1.store := by
      rw [runRemote_cons]
    have htr_eq : (runRemote ans true st (i0 :: rest)).2
        = (processItem ans true st i0).2 ::
            (runRemote ans true (processItem ans true st i0).1 rest).2 := by
      rw [runRemote_cons]
    constructor
    · rw [hstore_eq, hih.1, hstep_store]
    · intro i hi
      rcases List.mem_cons.mp hi with heq | hi'
      · subst heq
        constructor
        · rw [htr_eq, hstep_tr, List.find?_cons_of_pos _ (by simp)]
        · rw [hfs_eq,
            runRemote_fs_frame ans true rest _
              (by intro i' h he; exact hhead_notin (he ▸ List.mem_map_of_mem _ h)),
            hstep_fs]
          exact fsWrite_get_self_of_none (hnone i (List.mem_cons_self _ _)) _ _ _
      · have hne : i0.name ≠ i.name :=
          fun he => hhead_notin (he ▸ List.mem_map_of_mem _ hi')
        constructor
        · rw [htr_eq, List.find?_cons_of_neg _ (by simp [hstep_tr, hne])]
          exact ((hih.2) i hi').1
        · rw [hfs_eq]
          exact ((hih.2) i hi').2

/-- Claim C2 (amended): if the local directory contains no entries at all
before the run — the fresh-client case, in which the candidate set is
necessarily empty — and the remote folder is non-empty with distinct item
names (MatchKey invariant), then every remote item is assigned decision
pull without any operator prompt, and after the run each such local file's
content equals the decompressed remote payload, so its fingerprint equals
the remote fingerprint. -/
theorem c2_fresh_client_pull (cfg : SyncConfig) (items : List RemoteItem)
    (answer : String → String) (_hne : items ≠ [])
    (hnames : (items.map RemoteItem.name).Nodup) :
    ∀ i ∈ items,
      decisionOf (run cfg [] items answer).2 i.name = some Decision.pull ∧
      promptedOf (run cfg [] items answer).2 i.name = some none ∧
      localFileContent (run cfg [] items answer).1.1 i.name =
        some (decompress (b64decode i.notes)) ∧
      remoteNotesOf (run cfg [] items answer).1.2 i.name = some i.notes ∧
      hashDigest (decompress (b64decode i.notes)) = remoteFingerprint i.notes := by
  have hcand : candidates cfg ([] : LocalFS) = [] := rfl
  have hrem : (phase1 cfg [] items answer).1.remaining = [] := by
    have hsub := runRemote_remaining_sub answer (candidates cfg ([] : LocalFS)).isEmpty items
      { fs := [], store := items, remaining := candidates cfg [] }
    rw [hcand] at hsub
    exact List.subset_nil.mp hsub
  have hfs_run : (run cfg [] items answer).1.1 = (phase1 cfg [] items answer).1.fs := by
    rw [run_parts, hrem]
    rfl
  have hstore_run : (run cfg [] items answer).1.2
      = (phase1 cfg [] items answer).1.store := by
    rw [run_parts, hrem]
    rfl
  have htr_run : (run cfg [] items answer).2 = (phase1 cfg [] items answer).2 := by
    rw [run_parts, hrem]
    exact List.append_nil _
  have hfp := runRemote_freshPull answer items
    { fs := [], store := items, remaining := candidates cfg [] } hnames (fun _ _ => rfl)
  intro i hi
  have hfp2 := hfp.2 i hi
  refine ⟨?_, ?_, ?_, ?_, rfl⟩
  · rw [htr_run]
    unfold decisionOf
    rw [show (phase1 cfg [] items answer).2.find? (fun t => t.name == i.name)
        = some { name := i.name, decision := Decision.pull, prompted := none } from hfp2.1]
    rfl
  · rw [htr_run]
    unfold promptedOf
    rw [show (phase1 cfg [] items answer).2.find? (fun t => t.name == i.name)
        = some { name := i.name, decision := Decision.pull, prompted := none } from hfp2.1]
    rfl
  · rw [hfs_run, localFileContent_some
      (show fsGet (phase1 cfg [] items answer).1.fs i.name = _ from hfp2.2)]
    rfl
  · rw [hstore_run, show (phase1 cfg [] items answer).1.store = items from hfp.1]
    unfold remoteNotesOf
    rw [find?_name_self hnames hi]
    rfl

/-- Claim C3: for a remote item whose name matches an existing local
regular file with equal fingerprints, the decision is skip, no prompt is
issued, and neither the local directory nor the remote store is touched. -/
theorem c3_idempotent_skip (answer : String → String) (localEmpty : Bool)
    (st : SyncState) (item : RemoteItem) {e : LocalEntry}
    (hlocal : fsGet st.fs item.name = some e) (hfile : e.isFile = true)
    (heq : hashDigest e.content = hashDigest (decompress (b64decode item.notes))) :
    (processItem answer localEmpty st item).2.decision = Decision.skip ∧
    (processItem answer localEmpty st item).2.prompted = none ∧
    (processItem answer localEmpty st item).1.fs = st.fs ∧
    (processItem answer localEmpty st item).1.store = st.store := by
  rw [processItem_equal answer localEmpty hlocal hfile heq.symm]
  exact ⟨rfl, rfl, rfl, rfl⟩

/-- Claim C4 (amended): a local file matching a configured ignore pattern
is never included in the candidate set, never appears in the remaining-local
phase (so it is never deleted and never pushed as a new item by that
phase), and the remaining-local phase leaves both the entry itself and the
remote items of its name untouched.  However — unlike the original claim —
the remote-item loop does not consult the ignore patterns and may still
pull onto or push the bytes of such a file when a remote item shares its
name (see the counterexample). -/
theorem c4_ignored_never_candidate (cfg : SyncConfig) (fs0 : LocalFS)
    (items : List RemoteItem) (answer : String → String) {n : String}
    (hig : cfg.ignored n = true) :
    n ∉ candidates cfg fs0 ∧
    n ∉ (phase1 cfg fs0 items answer).1.remaining ∧
    (∀ t ∈ (runLocal cfg answer
        ((phase1 cfg fs0 items answer).1.fs, (phase1 cfg fs0 items answer).1.store)
        (phase1 cfg fs0 items answer).1.remaining).2, t.name ≠ n) ∧
    ((fsGet fs0 n).isSome = true → (fsGet (run cfg fs0 items answer).1.1 n).isSome = true) ∧
    remoteNotesOf (run cfg fs0 items answer).1.2 n =
      remoteNotesOf (phase1 cfg fs0 items answer).1.store n := by
  have hnc : n ∉ candidates cfg fs0 := ignored_not_mem_candidates hig
  have hnrem : n ∉ (phase1 cfg fs0 items answer).1.remaining := by
    intro hmem
    exact hnc (runRemote_remaining_sub answer (candidates cfg fs0).isEmpty items
      { fs := fs0, store := items, remaining := candidates cfg fs0 } hmem)
  have hrem_ne : ∀ f ∈ (phase1 cfg fs0 items answer).1.remaining, f ≠ n :=
    fun f hf he => hnrem (he ▸ hf)
  refine ⟨hnc, hnrem, ?_, ?_, ?_⟩
  · intro t ht he
    exact hnrem (he ▸ runLocal_trace_names cfg answer _ _ t ht)
  · intro hsome
    have h1 : (fsGet (phase1 cfg fs0 items answer).1.fs n).isSome = true :=
      runRemote_fs_isSome answer (candidates cfg fs0).isEmpty items
        { fs := fs0, store := items, remaining := candidates cfg fs0 } hsome
    have h2 := runLocal_fs_frame cfg answer (phase1 cfg fs0 items answer).1.remaining
      ((phase1 cfg fs0 items answer).1.fs, (phase1 cfg fs0 items answer).1.store) hrem_ne
    rw [show (run cfg fs0 items answer).1.1 = (runLocal cfg answer
        ((phase1 cfg fs0 items answer).1.fs, (phase1 cfg fs0 items answer).1.store)
        (phase1 cfg fs0 items answer).1.remaining).1.1 from by rw [run_parts], h2]
    exact h1
  · rw [show (run cfg fs0 items answer).1.2 = (runLocal cfg answer
        ((phase1 cfg fs0 items answer).1.fs, (phase1 cfg fs0 items answer).1.store)
        (phase1 cfg fs0 items answer).1.remaining).1.2 from by rw [run_parts]]
    exact runLocal_store_frame cfg answer _ _ hrem_ne

/-- Claim C5: for every byte sequence, decompressing its compression
returns it exactly (round-trip law of the content codec; the codec is
modelled from the spec, the brotli implementation being an external
library). -/
theorem c5_codec_round_trip : ∀ b : Bytes, decompress (compress b) = b :=
  fun b => decompress_compressGo b.length b le_rfl

/-- Claim C6: for a local name with no matching remote item, when the
operator answers push-as-new, exactly one new remote item is created (the
store becomes the old store with a single appended document), placed in the
configured folder, named after the file, and its payload decompresses —
after base64 decoding — to the file's byte content; the local directory is
untouched. -/
theorem c6_push_as_new (cfg : SyncConfig) (answer : String → String) (fs : LocalFS)
    (store : List RemoteItem) (f : String) {e : LocalEntry}
    (hlocal : fsGet fs f = some e) (hbytes : ∀ x ∈ e.content, x < 256)
    (hans : answer f = "u") :
    (processLocal cfg answer fs store f).1.1 = fs ∧
    ∃ doc, (processLocal cfg answer fs store f).1.2 = store ++ [doc] ∧
      doc.name = f ∧ doc.folderId = cfg.folderId ∧
      decompress (b64decode doc.notes) = e.content ∧
      (processLocal cfg answer fs store f).2 =
        { name := f, decision := Decision.push,
          prompted := some PromptKind.localUnmatched } := by
  have hs := @processLocal_push cfg answer fs store f hans
  have h1 : (processLocal cfg answer fs store f).1.1 = fs := by rw [hs]
  have h2 : (processLocal cfg answer fs store f).1.2 = store ++
      [{ id := freshId store, name := f, itemType := 2,
         notes := b64encode (compress (((fsGet fs f).map LocalEntry.content).getD [])),
         revisionDate := 0, folderId := cfg.folderId }] := by
    rw [hs]
    rfl
  have h3 : (processLocal cfg answer fs store f).2 =
      { name := f, decision := Decision.push,
        prompted := some PromptKind.localUnmatched } := by
    rw [hs]
  refine ⟨h1, _, h2, rfl, rfl, ?_, h3⟩
  show decompress (b64decode (b64encode
      (compress (((fsGet fs f).map LocalEntry.content).getD [])))) = e.content
  rw [hlocal]
  simp only [Option.map_some', Option.getD_some]
  have hcl := compress_lt e.content hbytes
  rw [b64decode_encode _ hcl, decompress_compress]

/-- Claim C7: an executed push decision on a matched diverged pair edits the
existing remote item in place: every store entry with a different id is
kept unchanged, and the entry carrying the item's id keeps its id, name,
type, revision date and folder, with only the payload replaced by the
base64-encoded compression of the local file's bytes; the local directory
is untouched. -/
theorem c7_push_edit_preserves_fields (answer : String → String) (localEmpty : Bool)
    (st : SyncState) (item : RemoteItem) {e : LocalEntry}
    (hlocal : fsGet st.fs item.name = some e) (hfile : e.isFile = true)
    (hdiff : hashDigest (decompress (b64decode item.notes)) ≠ hashDigest e.content)
    (hans : answer item.name = "u") :
    (processItem answer localEmpty st item).2.decision = Decision.push ∧
    (processItem answer localEmpty st item).1.fs = st.fs ∧
    (∀ j ∈ st.store, j.id ≠ item.id → j ∈ (processItem answer localEmpty st item).1.store) ∧
    (∀ j ∈ (processItem answer localEmpty st item).1.store, j.id = item.id →
      j.name = item.name ∧ j.itemType = item.itemType ∧
      j.revisionDate = item.revisionDate ∧ j.folderId = item.folderId ∧
      j.notes = b64encode (compress e.content)) := by
  have hs := processItem_divergedPush localEmpty hlocal hfile hdiff hans
  have hdec : (processItem answer localEmpty st item).2.decision = Decision.push := by
    rw [hs]
  have hfs : (processItem answer localEmpty st item).1.fs = st.fs := by rw [hs]
  have hsto : (processItem answer localEmpty st item).1.store
      = bwEditItem st.store item.id
          { item with notes := b64encode (compress e.content) } := by rw [hs]
  refine ⟨hdec, hfs, ?_, ?_⟩
  · intro j hj hne
    rw [hsto]
    exact List.mem_map.mpr ⟨j, hj, by rw [if_neg hne]⟩
  · intro j hj hid
    rw [hsto] at hj
    rcases List.mem_map.mp hj with ⟨j0, hj0, heq⟩
    by_cases hj0id : j0.id = item.id
    · rw [if_pos hj0id] at heq
      subst heq
      exact ⟨rfl, rfl, rfl, rfl, rfl⟩
    · rw [if_neg hj0id] at heq
      subst heq
      exact absurd hid hj0id

/-- Claim C8: at each of the three prompts, any operator response other
than the offered single-character choices results in decision skip and no
local or remote mutation for that name: the first conjunct covers the two
remote-loop prompts (remote-missing-local and diverged), the second the
remaining-local prompt. -/
theorem c8_unrecognized_response_skips :
    (∀ (answer : String → String) (localEmpty : Bool) (st : SyncState) (item : RemoteItem)
      (k : PromptKind),
      (processItem answer localEmpty st item).2.prompted = some k →
      answer item.name ∉ promptChoices k →
      (processItem answer localEmpty st item).2.decision = Decision.skip ∧
      (processItem answer localEmpty st item).1.fs = st.fs ∧
      (processItem answer localEmpty st item).1.store = st.store) ∧
    (∀ (cfg : SyncConfig) (answer : String → String) (fs : LocalFS)
      (store : List RemoteItem) (f : String),
      answer f ∉ promptChoices PromptKind.localUnmatched →
      processLocal cfg answer fs store f =
        ((fs, store),
         { name := f, decision := Decision.skip,
           prompted := some PromptKind.localUnmatched })) := by
  constructor
  · intro answer le st item k hpr hans
    cases hg : fsGet st.fs item.name with
    | some e =>
      cases hf : e.isFile with
      | false =>
        rw [processItem_notFile answer le hg hf] at hpr
        simp at hpr
      | true =>
        by_cases hne : hashDigest (decompress (b64decode item.notes)) ≠ hashDigest e.content
        · by_cases hp : answer item.name = "p"
          · rw [processItem_divergedPull le hg hf hne hp] at hpr
            simp only [Option.some.injEq] at hpr
            subst hpr
            exact absurd (by rw [hp]; simp [promptChoices]) hans
          · by_cases hu : answer item.name = "u"
            · rw [processItem_divergedPush le hg hf hne hu] at hpr
              simp only [Option.some.injEq] at hpr
              subst hpr
              exact absurd (by rw [hu]; simp [promptChoices]) hans
            · rw [processItem_divergedSkip le hg hf hne hp hu]
              exact ⟨rfl, rfl, rfl⟩
        · rw [processItem_equal answer le hg hf (not_not.mp hne)] at hpr
          simp at hpr
    | none =>
      cases le with
      | true =>
        rw [processItem_freshPull answer hg] at hpr
        simp at hpr
      | false =>
        by_cases hd : answer item.name = "d"
        · rw [processItem_missingDelete hg hd] at hpr
          simp only [Option.some.injEq] at hpr
          subst hpr
          exact absurd (by rw [hd]; simp [promptChoices]) hans
        · by_cases hp : answer item.name = "p"
          · rw [processItem_missingPull hg hp] at hpr
            simp only [Option.some.injEq] at hpr
            subst hpr
            exact absurd (by rw [hp]; simp [promptChoices]) hans
          · rw [processItem_missingSkip hg hd hp]
            exact ⟨rfl, rfl, rfl⟩
  · intro cfg answer fs store f hans
    have hd : answer f ≠ "d" := fun h => hans (by rw [h]; simp [promptChoices])
    have hu : answer f ≠ "u" := fun h => hans (by rw [h]; simp [promptChoices])
    exact processLocal_skip hd hu

set_option maxRecDepth 8192

/-- Claim C9 (code evaluation at the failing input): with no
environment-supplied session credential and an unlock output that does
contain the fixed-head session line, the session initialiser fails with a
ReferenceError rather than yielding the parsed token, because `src/util.js`
never requires the `os` module it dereferences (`os.EOL`); the claim's
described behaviour is the intent, and the code aborts on every
environment-less run. -/
theorem c9_missing_os_require :
    bwSessionInit none ["$ export BW_SESSION=\"token\""]
      = Except.error "ReferenceError: os is not defined" ∧
    unlockSessionLineHead.data.isPrefixOf ("$ export BW_SESSION=\"token\"").data = true ∧
    utilRequiredModules.contains "os" = false := by
  exact ⟨rfl, by decide, by decide⟩

/-- Claim C10 (amended): every executed pull writes the decompressed remote
payload to the item's local name, passing mode 0o400 to the write; a file
created by the pull therefore gets mode 0o400 (owner read-only), but a pull
that overwrites an existing file leaves the file's previous permission mode
unchanged, because the mode option of `writeFileSync` applies only at
creation. -/
theorem c10_pull_mode (answer : String → String) (localEmpty : Bool)
    (st : SyncState) (item : RemoteItem)
    (hdec : (processItem answer localEmpty st item).2.decision = Decision.pull) :
    ∃ e', fsGet (processItem answer localEmpty st item).1.fs item.name = some e' ∧
      e'.content = decompress (b64decode item.notes) ∧
      (fsGet st.fs item.name = none → e'.mode = 0o400) ∧
      (∀ e0, fsGet st.fs item.name = some e0 → e'.mode = e0.mode) := by
  cases hg : fsGet st.fs item.name with
  | some e =>
    cases hf : e.isFile with
    | false =>
      rw [processItem_notFile answer localEmpty hg hf] at hdec
      simp at hdec
    | true =>
      by_cases hne : hashDigest (decompress (b64decode item.notes)) ≠ hashDigest e.content
      · by_cases hp : answer item.name = "p"
        · have hs := processItem_divergedPull localEmpty hg hf hne hp
          have hfs : (processItem answer localEmpty st item).1.fs
              = fsWrite st.fs item.name (decompress (b64decode item.notes)) 0o400
                  item.revisionDate := by rw [hs]
          have hget : fsGet (processItem answer localEmpty st item).1.fs item.name
              = some { e with content := decompress (b64decode item.notes), mtimeMs := item.revisionDate } := by
            rw [hfs]
            exact fsWrite_get_self_of_some hg _ _ _
          refine ⟨_, hget, rfl, ?_, ?_⟩
          · intro h0
            simp at h0
          · intro e0 h0
            have he : e = e0 := Option.some.inj h0
            subst he
            rfl
        · by_cases hu : answer item.name = "u"
          · rw [processItem_divergedPush localEmpty hg hf hne hu] at hdec
            simp at hdec
          · rw [processItem_divergedSkip localEmpty hg hf hne hp hu] at hdec
            simp at hdec
      · rw [processItem_equal answer localEmpty hg hf (not_not.mp hne)] at hdec
        simp at hdec
  | none =>
    cases localEmpty with
    | true =>
      have hs := processItem_freshPull answer hg
      have hfs : (processItem answer true st item).1.fs
          = fsWrite st.fs item.name (decompress (b64decode item.notes)) 0o400
              item.revisionDate := by rw [hs]
      have hget : fsGet (processItem answer true st item).1.fs item.name
          = some { isFile := true, content := decompress (b64decode item.notes), mode := 0o400, mtimeMs := item.revisionDate } := by
        rw [hfs]
        exact fsWrite_get_self_of_none hg _ _ _
      refine ⟨_, hget, rfl, fun _ => rfl, ?_⟩
      intro e0 h0
      simp at h0
    | false =>
      by_cases hd : answer item.name = "d"
      · rw [processItem_missingDelete hg hd] at hdec
        simp at hdec
      · by_cases hp : answer item.name = "p"
        · have hs := processItem_missingPull hg hp
          have hfs : (processItem answer false st item).1.fs
              = fsWrite st.fs item.name (decompress (b64decode item.notes)) 0o400
                  item.revisionDate := by rw [hs]
          have hget : fsGet (processItem answer false st item).1.fs item.name
              = some { isFile := true, content := decompress (b64decode item.notes), mode := 0o400, mtimeMs := item.revisionDate } := by
            rw [hfs]
            exact fsWrite_get_self_of_none hg _ _ _
          refine ⟨_, hget, rfl, fun _ => rfl, ?_⟩
          intro e0 h0
          simp at h0
        · rw [processItem_missingSkip hg hd hp] at hdec
          simp at hdec

/-! ## Counterexamples -/

/-- Claim C2, counterexample to the original wording: here the candidate
set is empty (the only local entry matches an ignore pattern) and the
remote folder is non-empty, yet the remote item is not assigned pull
without a prompt: the remote loop stats the ignored file, shows the
diverged prompt, and the unrecognized response makes the decision skip. -/
theorem c2_counterexample :
    candidates cfgIgnoreA fsA1 = [] ∧
    decisionOf (run cfgIgnoreA fsA1 [item2] ansX).2 "a" = some Decision.skip ∧
    promptedOf (run cfgIgnoreA fsA1 [item2] ansX).2 "a"
      = some (some PromptKind.diverged) :=
  ⟨rfl, by decide, by decide⟩

/-- Claim C4, counterexample to the original wording: the local file "a"
matches an ignore pattern, yet because a remote item shares its name the
remote loop pushes it — its bytes [1] are sent to the remote store as the
item's new payload. -/
theorem c4_counterexample :
    cfgIgnoreA.ignored "a" = true ∧
    decisionOf (run cfgIgnoreA fsA1 [item2] ansU).2 "a" = some Decision.push ∧
    remoteNotesOf (run cfgIgnoreA fsA1 [item2] ansU).1.2 "a"
      = some (b64encode (compress [1])) :=
  ⟨rfl, by decide, by decide⟩

/-- Claim C10, counterexample to the original wording: a pull that
overwrites the existing file "a" (previous mode 0o644) leaves the file's
mode at 0o644 after the run, not the claimed read-only 0o400, because the
mode option of the write applies only at file creation. -/
theorem c10_counterexample :
    decisionOf (run cfgPlain fsA1 [item2] ansP).2 "a" = some Decision.pull ∧
    (fsGet (run cfgPlain fsA1 [item2] ansP).1.1 "a").map LocalEntry.mode = some 0o644 ∧
    (0o644 : Nat) ≠ 0o400 :=
  ⟨by decide, by decide, by decide⟩

/-! ## Witnesses -/

/-- Witness for C1 at a concrete fresh-client input. -/
theorem c1_reconciliation_invariant_witness :
    ((([] : LocalFS).map Prod.fst).Nodup ∧
      ([item7].map RemoteItem.name).Nodup ∧ ([item7].map RemoteItem.id).Nodup ∧
      FsBytes ([] : LocalFS) ∧ "a" ∈ [item7].map RemoteItem.name) ∧
    (hashDigest [7] = remoteFingerprint (b64encode (compress [7])) ∨
      decisionOf (run cfgPlain [] [item7] ansX).2 "a" = some Decision.skip) :=
  ⟨⟨by decide, by decide, by decide, fun p hp => absurd hp (List.not_mem_nil p), by decide⟩,
   c1_reconciliation_invariant cfgPlain [] [item7] ansX (by decide) (by decide) (by decide)
     (fun p hp => absurd hp (List.not_mem_nil p)) "a" (Or.inl (by decide)) [7]
     (b64encode (compress [7])) (by decide) (by decide)⟩

/-- Witness for the amended C2 at a concrete one-item folder. -/
theorem c2_fresh_client_pull_witness :
    (([item7] ≠ ([] : List RemoteItem)) ∧ ([item7].map RemoteItem.name).Nodup ∧
      item7 ∈ [item7]) ∧
    (decisionOf (run cfgPlain [] [item7] ansX).2 "a" = some Decision.pull ∧
     promptedOf (run cfgPlain [] [item7] ansX).2 "a" = some none ∧
     localFileContent (run cfgPlain [] [item7] ansX).1.1 "a" = some [7] ∧
     remoteNotesOf (run cfgPlain [] [item7] ansX).1.2 "a" = some item7.notes ∧
     hashDigest [7] = remoteFingerprint item7.notes) :=
  ⟨⟨by decide, by decide, by decide⟩,
   c2_fresh_client_pull cfgPlain [item7] ansX (by decide) (by decide) item7 (by decide)⟩

/-- Witness for C3 at a concrete already-consistent pair. -/
theorem c3_idempotent_skip_witness :
    (fsGet stA7.fs item7.name = some entry7 ∧ entry7.isFile = true ∧
      hashDigest entry7.content = hashDigest (decompress (b64decode item7.notes))) ∧
    ((processItem ansX true stA7 item7).2.decision = Decision.skip ∧
     (processItem ansX true stA7 item7).2.prompted = none ∧
     (processItem ansX true stA7 item7).1.fs = stA7.fs ∧
     (processItem ansX true stA7 item7).1.store = stA7.store) :=
  ⟨⟨by decide, by decide, by decide⟩,
   @c3_idempotent_skip ansX true stA7 item7 entry7 (by decide) (by decide) (by decide)⟩

/-- Witness for the amended C4 at a concrete ignored name. -/
theorem c4_ignored_never_candidate_witness :
    cfgIgnoreA.ignored "a" = true ∧
    ("a" ∉ candidates cfgIgnoreA fsA1 ∧
     "a" ∉ (phase1 cfgIgnoreA fsA1 [item2] ansU).1.remaining ∧
     (∀ t ∈ (runLocal cfgIgnoreA ansU
         ((phase1 cfgIgnoreA fsA1 [item2] ansU).1.fs,
          (phase1 cfgIgnoreA fsA1 [item2] ansU).1.store)
         (phase1 cfgIgnoreA fsA1 [item2] ansU).1.remaining).2, t.name ≠ "a") ∧
     ((fsGet fsA1 "a").isSome = true →
       (fsGet (run cfgIgnoreA fsA1 [item2] ansU).1.1 "a").isSome = true) ∧
     remoteNotesOf (run cfgIgnoreA fsA1 [item2] ansU).1.2 "a" =
       remoteNotesOf (phase1 cfgIgnoreA fsA1 [item2] ansU).1.store "a") :=
  ⟨by decide, @c4_ignored_never_candidate cfgIgnoreA fsA1 [item2] ansU "a" (by decide)⟩

/-- Witness for C6 at a concrete local-only file. -/
theorem c6_push_as_new_witness :
    (fsGet fsA7 "a" = some entry7 ∧ (∀ x ∈ entry7.content, x < 256) ∧ ansU "a" = "u") ∧
    ((processLocal cfgPlain ansU fsA7 [] "a").1.1 = fsA7 ∧
     ∃ doc, (processLocal cfgPlain ansU fsA7 [] "a").1.2 = [] ++ [doc] ∧
       doc.name = "a" ∧ doc.folderId = cfgPlain.folderId ∧
       decompress (b64decode doc.notes) = entry7.content ∧
       (processLocal cfgPlain ansU fsA7 [] "a").2 =
         { name := "a", decision := Decision.push,
           prompted := some PromptKind.localUnmatched }) :=
  ⟨⟨by decide, by decide, rfl⟩,
   @c6_push_as_new cfgPlain ansU fsA7 [] "a" entry7 (by decide) (by decide) rfl⟩

/-- Witness for C7 at a concrete diverged pair. -/
theorem c7_push_edit_preserves_fields_witness :
    (fsGet stA1.fs item2.name = some entry1 ∧ entry1.isFile = true ∧
      hashDigest (decompress (b64decode item2.notes)) ≠ hashDigest entry1.content ∧
      ansU item2.name = "u") ∧
    ((processItem ansU false stA1 item2).2.decision = Decision.push ∧
     (processItem ansU false stA1 item2).1.fs = stA1.fs ∧
     (∀ j ∈ stA1.store, j.id ≠ item2.id → j ∈ (processItem ansU false stA1 item2).1.store) ∧
     (∀ j ∈ (processItem ansU false stA1 item2).1.store, j.id = item2.id →
       j.name = item2.name ∧ j.itemType = item2.itemType ∧
       j.revisionDate = item2.revisionDate ∧ j.folderId = item2.folderId ∧
       j.notes = b64encode (compress entry1.content))) :=
  ⟨⟨by decide, by decide, by decide, by decide⟩,
   @c7_push_edit_preserves_fields ansU false stA1 item2 entry1 (by decide) (by decide)
     (by decide) (by decide)⟩

/-- Witness for C8: one unrecognized response at the diverged prompt and
one at the remaining-local prompt. -/
theorem c8_unrecognized_response_skips_witness :
    (((processItem ansX false stA1 item2).2.prompted = some PromptKind.diverged ∧
      ansX item2.name ∉ promptChoices PromptKind.diverged) ∧
     ((processItem ansX false stA1 item2).2.decision = Decision.skip ∧
      (processItem ansX false stA1 item2).1.fs = stA1.fs ∧
      (processItem ansX false stA1 item2).1.store = stA1.store)) ∧
    ((ansX "a" ∉ promptChoices PromptKind.localUnmatched) ∧
     processLocal cfgPlain ansX fsA1 [] "a" =
       ((fsA1, []),
        { name := "a", decision := Decision.skip,
          prompted := some PromptKind.localUnmatched })) :=
  ⟨⟨⟨by decide, by decide⟩,
    c8_unrecognized_response_skips.1 ansX false stA1 item2 PromptKind.diverged (by decide)
      (by decide)⟩,
   ⟨by decide, c8_unrecognized_response_skips.2 cfgPlain ansX fsA1 [] "a" (by decide)⟩⟩

/-- Witness for the amended C10 at a concrete diverged pull. -/
theorem c10_pull_mode_witness :
    ((processItem ansP false stA1 item2).2.decision = Decision.pull) ∧
    (∃ e', fsGet (processItem ansP false stA1 item2).1.fs item2.name = some e' ∧
      e'.content = decompress (b64decode item2.notes) ∧
      (fsGet stA1.fs item2.name = none → e'.mode = 0o400) ∧
      (∀ e0, fsGet stA1.fs item2.name = some e0 → e'.mode = e0.mode)) :=
  ⟨by decide, c10_pull_mode ansP false stA1 item2 (by decide)⟩
